import Mathlib

/-!
Shallow embedding of the `multiset` repository (src/src/multiset.hpp,
src/src/multiset.cpp): a recursive multiset whose elements are
`std::variant<std::string, std::shared_ptr<MultiSet>>`, stored in an
`std::unordered_map<Element, int, VariantHash, VariantEqual>`.

Modelling decisions, each tied to the source:

* An `Element` is either a `label` (the `std::string` alternative) or a
  `nested` multiset held through a `shared_ptr`.  A `shared_ptr` has an
  address, and the address is observable (see `valueEq` below), so a
  `nested` element carries the pointer identity as a `Nat` together with
  the content of the pointee.  Real program states never hold two
  pointers with the same address and different pointees; the predicate
  `consistentB` below expresses that.

* The `unordered_map` is modelled as an association list `MSMap` whose
  iteration order is the list order.  Real maps have pairwise distinct
  keys under the container predicate (`VariantEqual`); `msOk` states it.

* Counts are C++ `int`; they are modelled as `Int` (no claim in scope
  depends on 32-bit wrap-around).

* `MultiSet::operator==` is `elements_ == other.elements_`, i.e.
  `std::unordered_map::operator==`.  Per the C++ standard
  ([unord.req]/12) two unordered containers with unique keys are equal
  iff the sizes are equal and every entry of the left container has a
  matching entry in the right container, where the final match is the
  `==` of the stored `value_type` `std::pair<const Element, int>` itself
  (this is why the standard requires `Key` to be EqualityComparable).
  `std::variant::operator==` compares `shared_ptr` alternatives with
  `shared_ptr::operator==`, i.e. by address, not by pointee content.
  The container's `VariantEqual` predicate is used only for lookup and
  bucket grouping.  `mapEq` below embeds exactly that: sizes equal and
  every entry of the left list has a pairwise `value ==` mate in the
  right list (the bucket/grouping refinement is dropped; under
  consistent states the two formulations coincide because pointer
  equality refines content equality).
-/

inductive Element where
  | label  : String → Element
  | nested : Nat → List (Element × Int) → Element

abbrev MSMap := List (Element × Int)

mutual
/-- Structural (syntactic) equality test on elements, used to obtain
decidable equality for the nested inductive type. -/
def elemBeq : Element → Element → Bool
  | .label s, .label t => s == t
  | .nested p c, .nested q d => p == q && msBeq c d
  | _, _ => false
/-- Structural equality test on element maps. -/
def msBeq : MSMap → MSMap → Bool
  | [], [] => true
  | (e, c) :: r1, (f, d) :: r2 => elemBeq e f && c == d && msBeq r1 r2
  | _, _ => false
end

mutual
theorem elemBeq_iff : ∀ a b : Element, elemBeq a b = true ↔ a = b
  | .label s, .label t => by simp [elemBeq]
  | .label s, .nested q d => by simp [elemBeq]
  | .nested p c, .label t => by simp [elemBeq]
  | .nested p c, .nested q d => by
      simp only [elemBeq, Bool.and_eq_true, beq_iff_eq, msBeq_iff c d,
        Element.nested.injEq]
theorem msBeq_iff : ∀ a b : MSMap, msBeq a b = true ↔ a = b
  | [], [] => by simp [msBeq]
  | [], (f, d) :: r2 => by simp [msBeq]
  | (e, c) :: r1, [] => by simp [msBeq]
  | (e, c) :: r1, (f, d) :: r2 => by
      simp only [msBeq, Bool.and_eq_true, beq_iff_eq, elemBeq_iff e f,
        msBeq_iff r1 r2, List.cons.injEq, Prod.mk.injEq, and_assoc]
end

instance : DecidableEq Element := fun a b =>
  decidable_of_iff (elemBeq a b = true) (elemBeq_iff a b)

/-- Embeds `std::variant::operator==` on `Element`
(`std::variant<std::string, std::shared_ptr<MultiSet>>`): same
alternative required; strings compare by content, `shared_ptr`s compare
by address (`shared_ptr::operator==` does not dereference). -/
def valueEq : Element → Element → Bool
  | .label s, .label t => s == t
  | .nested p _, .nested q _ => p == q
  | _, _ => false

/-- Embeds `operator==` on the stored `value_type`
`std::pair<const Element, int>`: component-wise `==`. -/
def pairEq (x y : Element × Int) : Bool := valueEq x.1 y.1 && x.2 == y.2

/-- Embeds `std::unordered_map::operator==` (used verbatim by
`MultiSet::operator==`, multiset.cpp line 191): equal sizes, and every
entry of the left container has a mate in the right container equal
under the `value_type`'s own `operator==` (see the header comment). -/
def mapEq (a b : MSMap) : Bool :=
  (a.length == b.length) && a.all (fun p => b.any (fun q => pairEq p q))

/-- Embeds `VariantEqual::operator()` (multiset.cpp lines 72-97): same
alternative required; strings by content; `shared_ptr` alternatives are
dereferenced and the pointees compared with `MultiSet::operator==`,
i.e. `mapEq` of their element maps. -/
def elemEq : Element → Element → Bool
  | .label s, .label t => s == t
  | .nested _ c, .nested _ d => mapEq c d
  | _, _ => false

/-- Embeds `elements_.find(element)` (the map lookup with hash
`VariantHash` and predicate `VariantEqual`): the first entry whose key
the predicate relates to the query, applied as pred(query, stored). -/
def findEntry (e : Element) : MSMap → Option (Element × Int)
  | [] => none
  | (k, c) :: rest => if elemEq e k then some (k, c) else findEntry e rest

/-- Embeds `MultiSet::IsContains` (multiset.cpp lines 144-148). -/
def isContains (e : Element) (m : MSMap) : Bool := (findEntry e m).isSome

/-- Embeds `MultiSet::Size` (multiset.cpp lines 160-168): the sum of all
stored counts. -/
def msSize (m : MSMap) : Int := m.foldl (fun acc p => acc + p.2) 0

/-- Embeds `MultiSet::AddElement` (multiset.cpp lines 105-117): if a key
matching under `VariantEqual` exists, increment its count in place,
otherwise insert the element with count 1 (insertion position in an
`unordered_map` is unspecified; modelled as appending). -/
def addElement (e : Element) : MSMap → MSMap
  | [] => [(e, 1)]
  | (k, c) :: rest =>
      if elemEq e k then (k, c + 1) :: rest else (k, c) :: addElement e rest

/-- Embeds `elements_[key] = v` (`unordered_map::operator[]` followed by
assignment): overwrite the count of the first matching key, keeping the
stored key itself, or insert the new key if no key matches. -/
def insertOrAssign (e : Element) (v : Int) : MSMap → MSMap
  | [] => [(e, v)]
  | (k, c) :: rest =>
      if elemEq e k then (k, v) :: rest else (k, c) :: insertOrAssign e v rest

/-- Embeds `MultiSet::RemoveElement` (multiset.cpp lines 124-137):
`none` models the thrown `std::runtime_error` when no key matches
(thrown before any mutation); otherwise the found count is decremented
and the entry erased when the decremented count is 0. -/
def removeElement (e : Element) : MSMap → Option MSMap
  | [] => none
  | (k, c) :: rest =>
      if elemEq e k then some (if c - 1 == 0 then rest else (k, c - 1) :: rest)
      else (removeElement e rest).map (fun m => (k, c) :: m)

/-- Wraps `removeElement` as the call site sees it: the C++ method
mutates the object on success and throws (leaving the object untouched)
on failure; the `Bool` is true iff the call succeeded. -/
def runRemove (m : MSMap) (e : Element) : MSMap × Bool :=
  match removeElement e m with
  | none => (m, false)
  | some m2 => (m2, true)

/-- Embeds `MultiSet::SetElements` (multiset.cpp lines 510-513): the
whole element map is replaced by the argument, unchecked. -/
def setElements (_old new : MSMap) : MSMap := new

/-- Embeds one iteration of the loop of `MultiSet::operator+`
(multiset.cpp lines 205-223): for an entry of `other`, take the max
with the existing count or insert the count. -/
def unionStep (acc : MSMap) (p : Element × Int) : MSMap :=
  match findEntry p.1 acc with
  | some (_, c0) => insertOrAssign p.1 (max c0 p.2) acc
  | none => insertOrAssign p.1 p.2 acc

/-- Embeds `MultiSet::operator+` (multiset.cpp lines 205-223): copy the
left map, then fold the loop over the right map. -/
def unionOp (a b : MSMap) : MSMap := b.foldl unionStep a

/-- Embeds one iteration of the loop of `MultiSet::operator*`
(multiset.cpp lines 253-268). -/
def interStep (b : MSMap) (acc : MSMap) (p : Element × Int) : MSMap :=
  match findEntry p.1 b with
  | some (_, cb) => insertOrAssign p.1 (min p.2 cb) acc
  | none => acc

/-- Embeds `MultiSet::operator*` (multiset.cpp lines 253-268). -/
def interOp (a b : MSMap) : MSMap := a.foldl (interStep b) []

/-- Embeds the first loop of `MultiSet::operator-` (multiset.cpp lines
301-318): entries of the left map, reduced or dropped against the right
map. -/
def subStep1 (b : MSMap) (acc : MSMap) (p : Element × Int) : MSMap :=
  match findEntry p.1 b with
  | some (_, cb) => if p.2 > cb then insertOrAssign p.1 (p.2 - cb) acc else acc
  | none => insertOrAssign p.1 p.2 acc

/-- Embeds the second loop of `MultiSet::operator-` (multiset.cpp lines
319-326): entries of the right map absent from the left map are copied
into the result. -/
def subStep2 (a : MSMap) (acc : MSMap) (p : Element × Int) : MSMap :=
  match findEntry p.1 a with
  | some _ => acc
  | none => insertOrAssign p.1 p.2 acc

/-- Embeds `MultiSet::operator-` (multiset.cpp lines 298-328). -/
def subOp (a b : MSMap) : MSMap := b.foldl (subStep2 a) (a.foldl (subStep1 b) [])

/-- Keys pairwise distinct under the variant value equality (`valueEq`,
i.e. distinct addresses for nested elements): every real map satisfies
it, because a key equal to an existing key under the coarser container
predicate is never inserted, and pointer equality implies content
equality in a real heap. -/
def distinctV : MSMap → Bool
  | [] => true
  | p :: rest => rest.all (fun q => !valueEq p.1 q.1) && distinctV rest

/-- Well-formedness of a single element: the content map of a nested
element has pairwise `valueEq`-distinct keys (true of every map a real
`MultiSet` holds). -/
def elemOk : Element → Bool
  | .label _ => true
  | .nested _ c => distinctV c

/-- Well-formedness of a map as `unordered_map` maintains it: keys
pairwise distinct both under the container predicate `VariantEqual` and
under the value equality, and each key well-formed. -/
def msOk : MSMap → Bool
  | [] => true
  | p :: rest =>
      rest.all (fun q => !elemEq p.1 q.1 && !valueEq p.1 q.1) && elemOk p.1 && msOk rest

/-- Every stored count is at least 1 (the documented map invariant). -/
def posCounts (m : MSMap) : Bool := m.all (fun p => decide ((1 : Int) ≤ p.2))

/-- Count lookup through the container predicate: the stored count of
the key matching `e`, if any. -/
def cnt (e : Element) (m : MSMap) : Option Int := (findEntry e m).map Prod.snd

/-- Count with absent treated as 0 (the spec's counting convention). -/
def cntz (e : Element) (m : MSMap) : Int := (cnt e m).getD 0

mutual
/-- Embeds `VariantHash::operator()` (multiset.cpp lines 43-60),
parameterised by the implementation-defined `std::hash<std::string>`
and `std::hash<int>`: strings hash by content, nested elements hash the
pointee's content via `MultiSetHash` - never the address. -/
def elemHash (hs : String → Nat) (hi : Int → Nat) : Element → Nat
  | .label s => hs s
  | .nested _ c => msHashAcc hs hi c 0
/-- Embeds the accumulation loop of `MultiSetHash::operator()`
(multiset.cpp lines 14-31): `hash_value ^= element_hash ^ (count_hash
<< 1)`, the shift wrapping at the 64-bit `size_t` width. -/
def msHashAcc (hs : String → Nat) (hi : Int → Nat) : MSMap → Nat → Nat
  | [], acc => acc
  | (e, n) :: rest, acc =>
      msHashAcc hs hi rest (acc ^^^ (elemHash hs hi e ^^^ ((hi n <<< 1) % 2 ^ 64)))
end

/-- Embeds `MultiSetHash::operator()` (multiset.cpp lines 14-31). -/
def msHash (hs : String → Nat) (hi : Int → Nat) (m : MSMap) : Nat := msHashAcc hs hi m 0

mutual
/-- All pointer bindings (address, pointee content) reachable from an
element. -/
def elemBindings : Element → List (Nat × MSMap)
  | .label _ => []
  | .nested p c => (p, c) :: msBindings c
/-- All pointer bindings reachable from a map's keys. -/
def msBindings : MSMap → List (Nat × MSMap)
  | [] => []
  | (e, _) :: rest => elemBindings e ++ msBindings rest
end

/-- Heap consistency of a collection of pointer bindings: one address
never binds two different contents.  Every set of values reachable in a
single real program state satisfies this. -/
def consistentB (bs : List (Nat × MSMap)) : Bool :=
  match bs with
  | [] => true
  | x :: rest => rest.all (fun y => x.1 != y.1 || decide (x.2 = y.2)) && consistentB rest

mutual
/-- Embeds `operator<<` on a variant (multiset.cpp lines 452-469):
labels print verbatim, nested elements print through the multiset
writer. -/
def writeElem : Element → String
  | .label s => s
  | .nested _ c => "\x7b" ++ String.intercalate ", " (writeEntries c) ++ "\x7d"
/-- Embeds the nested loops of `operator<<` on a `MultiSet`
(multiset.cpp lines 482-500): each entry is emitted `count` times (a
non-positive count emits nothing); the `first` flag makes the emitted
pieces exactly a ", "-separated sequence. -/
def writeEntries : MSMap → List String
  | [] => []
  | (e, c) :: rest => List.replicate c.toNat (writeElem e) ++ writeEntries rest
end

/-- Embeds `operator<<` on a `MultiSet` (multiset.cpp lines 482-500). -/
def writeMS (m : MSMap) : String :=
  "\x7b" ++ String.intercalate ", " (writeEntries m) ++ "\x7d"

/-- An `std::istream` restricted to what the reader uses: remaining
characters and the fail state. -/
structure IStream where
  data : List Char
  failed : Bool
deriving DecidableEq

def setFail (s : IStream) : IStream := { s with failed := true }

/-- The default-locale whitespace set used by `std::ws` and skipped by
formatted `is >> ch`. -/
def isWs (c : Char) : Bool :=
  c = ' ' || c = '\t' || c = '\n' || c = '\r' || c = '\x0b' || c = '\x0c'

/-- Embeds `is >> ch`: on a good stream, skip whitespace and extract one
character, failing (and setting the fail state) at end of input; on a
failed stream extract nothing. -/
def readCharSkipWs (s : IStream) : Option Char × IStream :=
  if s.failed then (none, s)
  else
    match s.data.dropWhile isWs with
    | [] => (none, { data := [], failed := true })
    | c :: rest => (some c, { data := rest, failed := false })

/-- Embeds `is.peek()`: the next character, or end-of-file on an empty
or failed stream. -/
def peekS (s : IStream) : Option Char := if s.failed then none else s.data.head?

/-- Embeds the label branch of the reader (multiset.cpp lines 404-418):
`is >> std::ws`, then accumulate characters until a `,`, `}` or end of
input. -/
def takeLabel (s : IStream) : String × IStream :=
  if s.failed then ("", s)
  else
    let t := s.data.dropWhile isWs
    (String.mk (t.takeWhile (fun c => c != ',' && c != '}')),
     { data := t.dropWhile (fun c => c != ',' && c != '}'), failed := false })

/-- Embeds the wrapping of a recursive `operator>>` result as an
element (multiset.cpp lines 398-403): a successful nested parse wraps
the parsed map behind the fresh address; a failed one leaves the
freshly allocated multiset empty (its `SetElements` is never called)
with the stream already failed. -/
def nestedElem (idc : Nat) : Option MSMap × IStream × Nat → Element × IStream × Nat
  | (some m, s2, idc2) => (Element.nested idc m, s2, idc2)
  | (none, s2, idc2) => (Element.nested idc [], s2, idc2)

/-- Embeds the label branch of the loop body (multiset.cpp lines
404-418). -/
def labelElem (idc : Nat) (s : IStream) : Element × IStream × Nat :=
  let lb := takeLabel s
  (Element.label lb.1, lb.2, idc)

/-- Embeds the element loop of `operator>>` (multiset.cpp lines
394-435), with the recursive `is >> *nested_multiset` call inlined
(that call is `parseMS`, whose body after consuming the mandatory `{`
is this very loop), and split on the step bound `fuel` at the top:
the C++ loop consumes input on every normal iteration, but once the
stream has failed it can iterate without consuming anything (a failed
`is >> ch` leaves `ch` stale), so a step bound is needed for the model
to be total; fuel exhaustion is reported like a failed parse (in the
exhausted case the nested descent fails like a failed stream read and
a continuing separator fails the parse).  `idc` is the allocator
counter handing out fresh `shared_ptr` addresses for `make_shared`.
`lastCh` is the current value of the local `ch`, left stale by a
failed extraction.  A nested multiset is parsed whenever the very next
character is `{` (no whitespace skip happens before this peek); a
failed nested parse leaves the freshly allocated multiset empty with
the stream failed, and the loop body still runs on.  Each element is
counted into the local map with the `operator[]++` rule, which is the
`addElement` rule. -/
def parseLoop : Nat → Nat → IStream → Char → MSMap → Option MSMap × IStream × Nat
  | 0, idc, s, lastCh, elems =>
    let r :=
      if peekS s == some '{' then
        nestedElem idc ((none : Option MSMap), setFail (readCharSkipWs s).2, idc + 1)
      else labelElem idc s
    let elems2 := addElement r.1 elems
    let s3p := readCharSkipWs r.2.1
    let ch := s3p.1.getD lastCh
    if ch = '}' then (some elems2, s3p.2, r.2.2)
    else (none, setFail s3p.2, r.2.2)
  | Nat.succ f, idc, s, lastCh, elems =>
    let r :=
      if peekS s == some '{' then
        nestedElem idc
          (match readCharSkipWs s with
           | (some '{', s1) => parseLoop f (idc + 1) s1 '{' []
           | (_, s1) => ((none : Option MSMap), setFail s1, idc + 1))
      else labelElem idc s
    let elems2 := addElement r.1 elems
    let s3p := readCharSkipWs r.2.1
    let ch := s3p.1.getD lastCh
    if ch = '}' then (some elems2, s3p.2, r.2.2)
    else if ch = ',' then parseLoop f r.2.2 s3p.2 ch elems2
    else (none, setFail s3p.2, r.2.2)

/-- Embeds `operator>>` (multiset.cpp lines 381-439): `is >> ch` must
produce `{`, else the fail state is set and nothing else happens;
otherwise the element loop runs.  Returns the parsed map (`none`
models the fail state with no `SetElements` call), the final stream
and the next fresh address. -/
def parseMS (fuel idc : Nat) (s : IStream) : Option MSMap × IStream × Nat :=
  match readCharSkipWs s with
  | (some '{', s1) =>
      (match fuel with
       | 0 => (none, setFail s1, idc)
       | Nat.succ f => parseLoop f idc s1 '{' [])
  | (_, s1) => (none, setFail s1, idc)

/-- The element branch of one loop iteration, as a named value for use
in proofs (it is exactly the expression bound to `r` in `parseLoop`). -/
def loopElem : Nat → Nat → IStream → Element × IStream × Nat
  | 0, idc, s =>
    if peekS s == some '{' then
      nestedElem idc ((none : Option MSMap), setFail (readCharSkipWs s).2, idc + 1)
    else labelElem idc s
  | Nat.succ f, idc, s =>
    if peekS s == some '{' then
      nestedElem idc
        (match readCharSkipWs s with
         | (some '{', s1) => parseLoop f (idc + 1) s1 '{' []
         | (_, s1) => ((none : Option MSMap), setFail s1, idc + 1))
    else labelElem idc s

theorem parseLoop_succ (f idc : Nat) (s : IStream) (lastCh : Char) (elems : MSMap) :
    parseLoop (Nat.succ f) idc s lastCh elems =
      (if (readCharSkipWs (loopElem (Nat.succ f) idc s).2.1).1.getD lastCh = '}' then
        (some (addElement (loopElem (Nat.succ f) idc s).1 elems),
          (readCharSkipWs (loopElem (Nat.succ f) idc s).2.1).2,
          (loopElem (Nat.succ f) idc s).2.2)
       else if (readCharSkipWs (loopElem (Nat.succ f) idc s).2.1).1.getD lastCh = ',' then
        parseLoop f (loopElem (Nat.succ f) idc s).2.2
          (readCharSkipWs (loopElem (Nat.succ f) idc s).2.1).2
          ((readCharSkipWs (loopElem (Nat.succ f) idc s).2.1).1.getD lastCh)
          (addElement (loopElem (Nat.succ f) idc s).1 elems)
       else (none, setFail (readCharSkipWs (loopElem (Nat.succ f) idc s).2.1).2,
          (loopElem (Nat.succ f) idc s).2.2)) := rfl

/-- One unfolding of the element loop: whatever the element branch
produced (element, stream after it, next address), the loop ends or
continues on the separator character read next. -/
theorem parseLoop_shape (fuel idc : Nat) (s : IStream) (lastCh : Char) (elems : MSMap) :
    ∃ (e0 : Element) (s0 : IStream) (j0 : Nat),
      parseLoop fuel idc s lastCh elems =
        (if (readCharSkipWs s0).1.getD lastCh = '}' then
            (some (addElement e0 elems), (readCharSkipWs s0).2, j0)
         else if (readCharSkipWs s0).1.getD lastCh = ',' then
            (match fuel with
             | 0 => (none, setFail (readCharSkipWs s0).2, j0)
             | Nat.succ f => parseLoop f j0 (readCharSkipWs s0).2
                 ((readCharSkipWs s0).1.getD lastCh) (addElement e0 elems))
         else (none, setFail (readCharSkipWs s0).2, j0)) := by
  cases fuel with
  | zero =>
      refine ⟨(loopElem 0 idc s).1, (loopElem 0 idc s).2.1,
        (loopElem 0 idc s).2.2, ?_⟩
      by_cases h1 : (readCharSkipWs (loopElem 0 idc s).2.1).1.getD lastCh = '}'
      · rw [if_pos h1]
        rw [show parseLoop 0 idc s lastCh elems =
          (if (readCharSkipWs (loopElem 0 idc s).2.1).1.getD lastCh = '}' then
            (some (addElement (loopElem 0 idc s).1 elems),
              (readCharSkipWs (loopElem 0 idc s).2.1).2, (loopElem 0 idc s).2.2)
           else (none, setFail (readCharSkipWs (loopElem 0 idc s).2.1).2,
              (loopElem 0 idc s).2.2)) from rfl]
        rw [if_pos h1]
      · rw [if_neg h1]
        rw [show parseLoop 0 idc s lastCh elems =
          (if (readCharSkipWs (loopElem 0 idc s).2.1).1.getD lastCh = '}' then
            (some (addElement (loopElem 0 idc s).1 elems),
              (readCharSkipWs (loopElem 0 idc s).2.1).2, (loopElem 0 idc s).2.2)
           else (none, setFail (readCharSkipWs (loopElem 0 idc s).2.1).2,
              (loopElem 0 idc s).2.2)) from rfl]
        rw [if_neg h1]
        split <;> rfl
  | succ f =>
      refine ⟨(loopElem (Nat.succ f) idc s).1, (loopElem (Nat.succ f) idc s).2.1,
        (loopElem (Nat.succ f) idc s).2.2, ?_⟩
      rfl

/-- Embeds a full `is >> multiset` call on a target multiset:
`SetElements` replaces the target's map only when the loop ends
successfully; on failure the target is untouched.  The `Bool` is true
iff the read succeeded. -/
def opIn (target : MSMap) (input : List Char) (fuel idc : Nat) : MSMap × IStream × Bool :=
  match parseMS fuel idc { data := input, failed := false } with
  | (some m, s, _) => (setElements target m, s, true)
  | (none, s, _) => (target, s, false)

/-! ### Basic properties of the three equality layers -/

theorem valueEq_refl (a : Element) : valueEq a a = true := by
  cases a <;> simp [valueEq]

theorem valueEq_symm {a b : Element} (h : valueEq a b = true) : valueEq b a = true := by
  cases a <;> cases b <;> simp_all [valueEq]

theorem valueEq_trans {a b c : Element} (h1 : valueEq a b = true)
    (h2 : valueEq b c = true) : valueEq a c = true := by
  cases a <;> cases b <;> cases c <;> simp_all [valueEq]

theorem pairEq_refl (p : Element × Int) : pairEq p p = true := by
  simp [pairEq, valueEq_refl]

theorem pairEq_symm {p q : Element × Int} (h : pairEq p q = true) : pairEq q p = true := by
  simp only [pairEq, Bool.and_eq_true, beq_iff_eq] at h ⊢
  exact ⟨valueEq_symm h.1, h.2.symm⟩

theorem pairEq_trans {p q r : Element × Int} (h1 : pairEq p q = true)
    (h2 : pairEq q r = true) : pairEq p r = true := by
  simp only [pairEq, Bool.and_eq_true, beq_iff_eq] at h1 h2 ⊢
  exact ⟨valueEq_trans h1.1 h2.1, h1.2.trans h2.2⟩

theorem mapEq_iff {a b : MSMap} :
    mapEq a b = true ↔
      a.length = b.length ∧ ∀ p ∈ a, ∃ q ∈ b, pairEq p q = true := by
  simp [mapEq, List.all_eq_true, List.any_eq_true]

theorem mapEq_refl (a : MSMap) : mapEq a a = true := by
  rw [mapEq_iff]
  exact ⟨rfl, fun p hp => ⟨p, hp, pairEq_refl p⟩⟩

theorem mapEq_trans {a b c : MSMap} (h1 : mapEq a b = true)
    (h2 : mapEq b c = true) : mapEq a c = true := by
  rw [mapEq_iff] at h1 h2 ⊢
  refine ⟨h1.1.trans h2.1, fun p hp => ?_⟩
  obtain ⟨q, hq, hpq⟩ := h1.2 p hp
  obtain ⟨r, hr, hqr⟩ := h2.2 q hq
  exact ⟨r, hr, pairEq_trans hpq hqr⟩

theorem distinctV_iff {m : MSMap} :
    distinctV m = true ↔ m.Pairwise (fun p q => valueEq p.1 q.1 = false) := by
  induction m with
  | nil => simp [distinctV]
  | cons p rest ih =>
      simp [distinctV, List.all_eq_true, List.pairwise_cons, ih, and_comm]

/-- Core pigeonhole step for the symmetry of the container equality:
if the left list has pairwise value-distinct keys, equal length, and
every left entry has a value-equal mate on the right, then every right
entry has a value-equal mate on the left. -/
theorem mapEq_rel_symm :
    ∀ a b : MSMap, a.Pairwise (fun p q => valueEq p.1 q.1 = false) →
      a.length = b.length → (∀ p ∈ a, ∃ q ∈ b, pairEq p q = true) →
      ∀ q ∈ b, ∃ p ∈ a, pairEq q p = true := by
  intro a
  induction a with
  | nil =>
      intro b _ hlen _ q hq
      rw [List.length_nil] at hlen
      rw [List.eq_nil_of_length_eq_zero hlen.symm] at hq
      simp at hq
  | cons p rest ih =>
      intro b hdist hlen hrel q0 hq0
      obtain ⟨q, hq, hpq⟩ := hrel p (List.mem_cons_self p rest)
      obtain ⟨s, t, rfl⟩ := List.append_of_mem hq
      rw [List.pairwise_cons] at hdist
      have hrest : ∀ r ∈ rest, ∃ u ∈ s ++ t, pairEq r u = true := by
        intro r hr
        obtain ⟨u, hu, hru⟩ := hrel r (List.mem_cons_of_mem p hr)
        rcases List.mem_append.1 hu with hus | hut
        · exact ⟨u, List.mem_append.2 (Or.inl hus), hru⟩
        · rcases List.mem_cons.1 hut with rfl | hut2
          · exfalso
            have hvr : valueEq p.1 r.1 = false := hdist.1 r hr
            have : pairEq p r = true := pairEq_trans hpq (pairEq_symm hru)
            simp only [pairEq, Bool.and_eq_true] at this
            rw [hvr] at this
            exact Bool.false_ne_true this.1
          · exact ⟨u, List.mem_append.2 (Or.inr hut2), hru⟩
      have hlen2 : rest.length = (s ++ t).length := by
        simp only [List.length_cons, List.length_append, List.length_cons] at hlen ⊢
        omega
      rcases List.mem_append.1 hq0 with h0s | h0qt
      · obtain ⟨r, hr, hqr⟩ :=
          ih (s ++ t) hdist.2 hlen2 hrest q0 (List.mem_append.2 (Or.inl h0s))
        exact ⟨r, List.mem_cons_of_mem p hr, hqr⟩
      · rcases List.mem_cons.1 h0qt with rfl | h0t
        · exact ⟨p, List.mem_cons_self p rest, pairEq_symm hpq⟩
        · obtain ⟨r, hr, hqr⟩ :=
            ih (s ++ t) hdist.2 hlen2 hrest q0 (List.mem_append.2 (Or.inr h0t))
          exact ⟨r, List.mem_cons_of_mem p hr, hqr⟩

theorem mapEq_symm {a b : MSMap} (hd : distinctV a = true)
    (h : mapEq a b = true) : mapEq b a = true := by
  rw [mapEq_iff] at h ⊢
  exact ⟨h.1.symm, mapEq_rel_symm a b (distinctV_iff.1 hd) h.1 h.2⟩

theorem elemEq_refl (a : Element) : elemEq a a = true := by
  cases a with
  | label s => simp [elemEq]
  | nested p c => simpa [elemEq] using mapEq_refl c

theorem elemEq_trans {a b c : Element} (h1 : elemEq a b = true)
    (h2 : elemEq b c = true) : elemEq a c = true := by
  cases a <;> cases b <;> cases c <;> simp_all [elemEq]
  exact mapEq_trans h1 h2

theorem elemEq_symm {a b : Element} (ha : elemOk a = true)
    (h : elemEq a b = true) : elemEq b a = true := by
  cases a <;> cases b <;> simp_all [elemEq, elemOk]
  exact mapEq_symm ha h

/-! ### Lookup and counting lemmas -/

theorem msOk_iff {m : MSMap} :
    msOk m = true ↔
      m.Pairwise (fun p q => elemEq p.1 q.1 = false ∧ valueEq p.1 q.1 = false) ∧
        ∀ p ∈ m, elemOk p.1 := by
  induction m with
  | nil => simp [msOk]
  | cons p rest ih =>
      simp only [msOk, Bool.and_eq_true, List.all_eq_true, List.pairwise_cons,
        List.mem_cons, ih]
      constructor
      · rintro ⟨⟨hall, hok⟩, hpw, hoks⟩
        refine ⟨⟨fun q hq => ?_, hpw⟩, ?_⟩
        · have := hall q hq
          simp only [Bool.and_eq_true, Bool.not_eq_true'] at this
          exact this
        · rintro r (rfl | hr)
          · exact hok
          · exact hoks r hr
      · rintro ⟨⟨hall, hpw⟩, hoks⟩
        refine ⟨⟨fun q hq => ?_, hoks p (Or.inl rfl)⟩, hpw,
          fun r hr => hoks r (Or.inr hr)⟩
        have := hall q hq
        simp only [Bool.and_eq_true, Bool.not_eq_true']
        exact this

theorem msOk_distinctV {m : MSMap} (h : msOk m = true) : distinctV m = true := by
  rw [msOk_iff] at h
  rw [distinctV_iff]
  exact h.1.imp (fun hpq => hpq.2)

theorem findEntry_none_iff {e : Element} {l : MSMap} :
    findEntry e l = none ↔ ∀ p ∈ l, elemEq e p.1 = false := by
  induction l with
  | nil => simp [findEntry]
  | cons p rest ih =>
      by_cases h : elemEq e p.1 = true
      · simp [findEntry, h]
      · simp only [Bool.not_eq_true] at h
        simp [findEntry, h, ih]

theorem findEntry_transport {e k : Element} (ho : elemOk e = true)
    (h : elemEq e k = true) : ∀ l : MSMap, findEntry k l = findEntry e l := by
  intro l
  induction l with
  | nil => rfl
  | cons p rest ih =>
      have hiff : elemEq k p.1 = elemEq e p.1 := by
        cases h2 : elemEq e p.1 with
        | true => exact elemEq_trans (elemEq_symm ho h) h2
        | false =>
            cases h3 : elemEq k p.1 with
            | true => rw [← h2, elemEq_trans h h3]
            | false => rfl
      simp [findEntry, hiff, ih]

theorem cnt_transport {e k : Element} (ho : elemOk e = true)
    (h : elemEq e k = true) (l : MSMap) : cnt k l = cnt e l := by
  simp [cnt, findEntry_transport ho h]

theorem cnt_insertOrAssign {e k : Element} (hoe : elemOk e = true)
    (hok : elemOk k = true) (v : Int) (m : MSMap) :
    cnt e (insertOrAssign k v m) =
      if elemEq e k then some v else cnt e m := by
  induction m with
  | nil =>
      simp only [insertOrAssign, cnt, findEntry]
      by_cases h : elemEq e k = true <;> simp [h]
  | cons p rest ih =>
      cases h1 : elemEq k p.1 with
      | true =>
          have hiff : elemEq e p.1 = elemEq e k := by
            cases h2 : elemEq e k with
            | true => exact elemEq_trans h2 h1
            | false =>
                cases h3 : elemEq e p.1 with
                | true => rw [← h2, elemEq_trans h3 (elemEq_symm hok h1)]
                | false => rfl
          by_cases h2 : elemEq e k = true
          · simp [insertOrAssign, h1, cnt, findEntry, hiff, h2]
          · simp only [Bool.not_eq_true] at h2
            simp [insertOrAssign, h1, cnt, findEntry, hiff, h2]
      | false =>
          cases h2 : elemEq e p.1 with
          | true =>
              have h3 : elemEq e k = false := by
                cases h4 : elemEq e k with
                | true =>
                    exact absurd (elemEq_trans (elemEq_symm hoe h4) h2)
                      (by simp [h1])
                | false => rfl
              simp [insertOrAssign, h1, cnt, findEntry, h2, h3]
          | false =>
              simp only [cnt] at ih
              simp [insertOrAssign, h1, cnt, findEntry, h2, ih]

theorem cnt_addElement_other {e f : Element} (hoe : elemOk e = true)
    (hfe : elemEq f e = false) (m : MSMap) :
    cnt f (addElement e m) = cnt f m := by
  induction m with
  | nil => simp [addElement, cnt, findEntry, hfe]
  | cons p rest ih =>
      cases h1 : elemEq e p.1 with
      | true =>
          have h2 : elemEq f p.1 = false := by
            cases h3 : elemEq f p.1 with
            | true => rw [← hfe, elemEq_trans h3 (elemEq_symm hoe h1)]
            | false => rfl
          simp [addElement, h1, cnt, findEntry, h2]
      | false =>
          simp only [cnt] at ih
          by_cases h2 : elemEq f p.1 = true
          · simp [addElement, h1, cnt, findEntry, h2]
          · simp only [Bool.not_eq_true] at h2
            simp [addElement, h1, cnt, findEntry, h2, ih]

/-! ### Union: counts, count-level commutativity, idempotence -/

theorem cnt_none_of_all {e : Element} {l : MSMap}
    (h : ∀ p ∈ l, elemEq e p.1 = false) : cnt e l = none := by
  simp [cnt, findEntry_none_iff.2 h]

theorem cnt_cons {e : Element} {p : Element × Int} {rest : MSMap} :
    cnt e (p :: rest) = if elemEq e p.1 then some p.2 else cnt e rest := by
  by_cases h : elemEq e p.1 = true
  · simp [cnt, findEntry, h]
  · simp only [Bool.not_eq_true] at h
    simp [cnt, findEntry, h]

theorem cnt_unionStep {e : Element} {p : Element × Int} (acc : MSMap)
    (hoe : elemOk e = true) (hop : elemOk p.1 = true) :
    cnt e (unionStep acc p) =
      if elemEq e p.1 then
        some (match cnt e acc with | some c0 => max c0 p.2 | none => p.2)
      else cnt e acc := by
  unfold unionStep
  cases hf : findEntry p.1 acc with
  | none =>
      rw [cnt_insertOrAssign hoe hop]
      by_cases he : elemEq e p.1 = true
      · have : cnt e acc = none := by
          rw [← cnt_transport hoe he acc]
          simp [cnt, hf]
        simp [he, this]
      · simp only [Bool.not_eq_true] at he
        simp [he]
  | some kc =>
      rw [cnt_insertOrAssign hoe hop]
      by_cases he : elemEq e p.1 = true
      · have : cnt e acc = some kc.2 := by
          rw [← cnt_transport hoe he acc]
          simp [cnt, hf]
        simp [he, this]
      · simp only [Bool.not_eq_true] at he
        simp [he]

theorem cnt_rest_none {e : Element} {p : Element × Int} {rest : MSMap}
    (hoe : elemOk e = true) (he : elemEq e p.1 = true)
    (hpw : ∀ q ∈ rest, elemEq p.1 q.1 = false ∧ valueEq p.1 q.1 = false) :
    cnt e rest = none := by
  apply cnt_none_of_all
  intro q hq
  cases h2 : elemEq e q.1 with
  | true =>
      exact absurd (elemEq_trans (elemEq_symm hoe he) h2) (by simp [(hpw q hq).1])
  | false => rfl

theorem cnt_unionOp {e : Element} (a b : MSMap) (hoe : elemOk e = true)
    (hb : msOk b = true) :
    cnt e (unionOp a b) =
      match cnt e a, cnt e b with
      | some x, some y => some (max x y)
      | some x, none => some x
      | none, some y => some y
      | none, none => none := by
  induction b generalizing a with
  | nil =>
      simp only [unionOp, List.foldl_nil]
      cases h : cnt e a <;> simp [cnt, findEntry]
  | cons p rest ih =>
      rw [msOk_iff] at hb
      have hop : elemOk p.1 = true := hb.2 p (List.mem_cons_self p rest)
      have hrest : msOk rest = true := by
        rw [msOk_iff]
        exact ⟨hb.1.sublist (List.sublist_cons_self p rest),
          fun q hq => hb.2 q (List.mem_cons_of_mem p hq)⟩
      simp only [unionOp, List.foldl_cons] at ih ⊢
      rw [ih (unionStep a p) hrest, cnt_unionStep a hoe hop, cnt_cons]
      by_cases he : elemEq e p.1 = true
      · have hnone : cnt e rest = none :=
          cnt_rest_none hoe he (fun q hq => (List.pairwise_cons.1 hb.1).1 q hq)
        rw [hnone]
        cases h : cnt e a <;> simp [he]
      · simp only [Bool.not_eq_true] at he
        simp [he]

theorem findEntry_self {m : MSMap} (hm : msOk m = true) :
    ∀ p ∈ m, findEntry p.1 m = some p := by
  induction m with
  | nil => intro p hp; simp at hp
  | cons q rest ih =>
      rw [msOk_iff] at hm
      intro p hp
      rcases List.mem_cons.1 hp with rfl | hp2
      · simp [findEntry, elemEq_refl]
      · have hne : elemEq p.1 q.1 = false := by
          cases h2 : elemEq p.1 q.1 with
          | true =>
              have hq : elemOk q.1 = true := hm.2 q (List.mem_cons_self q rest)
              exact absurd (elemEq_symm (hm.2 p (List.mem_cons_of_mem q hp2)) h2)
                (by simp [((List.pairwise_cons.1 hm.1).1 p hp2).1])
          | false => rfl
        have hrest : msOk rest = true := by
          rw [msOk_iff]
          exact ⟨hm.1.sublist (List.sublist_cons_self q rest),
            fun r hr => hm.2 r (List.mem_cons_of_mem q hr)⟩
        simp [findEntry, hne, ih hrest p hp2]

theorem insertOrAssign_self {k : Element} {v : Int} :
    ∀ m : MSMap, (∃ k2, findEntry k m = some (k2, v)) → insertOrAssign k v m = m := by
  intro m
  induction m with
  | nil => rintro ⟨k2, h⟩; simp [findEntry] at h
  | cons p rest ih =>
      rintro ⟨k2, h⟩
      cases h1 : elemEq k p.1 with
      | true =>
          simp only [findEntry, h1, if_pos] at h
          obtain ⟨rfl, hv⟩ : p.1 = k2 ∧ p.2 = v := by
            cases p; injection h with h2; injection h2 with h3 h4; exact ⟨h3, h4⟩
          cases p with
          | mk pk pc =>
              simp_all [insertOrAssign, h1]
      | false =>
          simp only [findEntry, h1] at h
          simp only [Bool.false_eq_true, if_false] at h
          simp [insertOrAssign, h1, ih ⟨k2, h⟩]

theorem unionOp_self {a : MSMap} (ha : msOk a = true) : unionOp a a = a := by
  have main : ∀ l : MSMap, (∀ p ∈ l, p ∈ a) → List.foldl unionStep a l = a := by
    intro l
    induction l with
    | nil => intro _; rfl
    | cons p rest ih =>
        intro hsub
        have hpa : p ∈ a := hsub p (List.mem_cons_self p rest)
        have hstep : unionStep a p = a := by
          unfold unionStep
          rw [findEntry_self ha p hpa]
          simp only [max_self]
          exact insertOrAssign_self a ⟨p.1, by simpa using findEntry_self ha p hpa⟩
        simp only [List.foldl_cons, hstep]
        exact ih (fun q hq => hsub q (List.mem_cons_of_mem p hq))
  exact main a (fun p hp => hp)

/-! ### Difference: counts -/

theorem cnt_subStep1 {e : Element} {p : Element × Int} (b acc : MSMap)
    (hoe : elemOk e = true) (hop : elemOk p.1 = true) :
    cnt e (subStep1 b acc p) =
      if elemEq e p.1 then
        (match cnt e b with
         | some cb => if p.2 > cb then some (p.2 - cb) else cnt e acc
         | none => some p.2)
      else cnt e acc := by
  unfold subStep1
  by_cases he : elemEq e p.1 = true
  · rw [show findEntry p.1 b = findEntry e b from findEntry_transport hoe he b]
    cases hf : findEntry e b with
    | none =>
        rw [cnt_insertOrAssign hoe hop]
        simp [he, cnt, hf]
    | some kc =>
        have hcb : cnt e b = some kc.2 := by simp [cnt, hf]
        by_cases hgt : kc.2 < p.2
        · simp only [hgt, if_pos]
          rw [cnt_insertOrAssign hoe hop]
          simp [he, hcb, hgt]
        · simp only [hgt, if_false]
          simp [he, hcb, hgt]
  · simp only [Bool.not_eq_true] at he
    cases hf : findEntry p.1 b with
    | none =>
        rw [cnt_insertOrAssign hoe hop]
        simp [he]
    | some kc =>
        by_cases hgt : kc.2 < p.2
        · simp only [hgt, if_pos]
          rw [cnt_insertOrAssign hoe hop]
          simp [he]
        · simp [hgt, he]

theorem cnt_subStep2 {e : Element} {p : Element × Int} (a acc : MSMap)
    (hoe : elemOk e = true) (hop : elemOk p.1 = true) :
    cnt e (subStep2 a acc p) =
      if elemEq e p.1 then
        (match cnt e a with
         | some _ => cnt e acc
         | none => some p.2)
      else cnt e acc := by
  unfold subStep2
  by_cases he : elemEq e p.1 = true
  · rw [show findEntry p.1 a = findEntry e a from findEntry_transport hoe he a]
    cases hf : findEntry e a with
    | none =>
        rw [cnt_insertOrAssign hoe hop]
        simp [he, cnt, hf]
    | some kc =>
        simp [he, cnt, hf]
  · simp only [Bool.not_eq_true] at he
    cases hf : findEntry p.1 a with
    | none =>
        rw [cnt_insertOrAssign hoe hop]
        simp [he]
    | some kc => simp [he]

theorem cnt_fold_subStep1_nomatch {e : Element} {b : MSMap} :
    ∀ (l : MSMap) (acc : MSMap), elemOk e = true →
      (∀ p ∈ l, elemEq e p.1 = false) → (∀ p ∈ l, elemOk p.1 = true) →
      cnt e (List.foldl (subStep1 b) acc l) = cnt e acc := by
  intro l
  induction l with
  | nil => intro acc _ _ _; rfl
  | cons p rest ih =>
      intro acc hoe hne hok
      simp only [List.foldl_cons]
      rw [ih _ hoe (fun q hq => hne q (List.mem_cons_of_mem p hq))
        (fun q hq => hok q (List.mem_cons_of_mem p hq))]
      rw [cnt_subStep1 b acc hoe (hok p (List.mem_cons_self p rest))]
      simp [hne p (List.mem_cons_self p rest)]

theorem cnt_fold_subStep2_nomatch {e : Element} {a : MSMap} :
    ∀ (l : MSMap) (acc : MSMap), elemOk e = true →
      (∀ p ∈ l, elemEq e p.1 = false) → (∀ p ∈ l, elemOk p.1 = true) →
      cnt e (List.foldl (subStep2 a) acc l) = cnt e acc := by
  intro l
  induction l with
  | nil => intro acc _ _ _; rfl
  | cons p rest ih =>
      intro acc hoe hne hok
      simp only [List.foldl_cons]
      rw [ih _ hoe (fun q hq => hne q (List.mem_cons_of_mem p hq))
        (fun q hq => hok q (List.mem_cons_of_mem p hq))]
      rw [cnt_subStep2 a acc hoe (hok p (List.mem_cons_self p rest))]
      simp [hne p (List.mem_cons_self p rest)]

theorem cnt_fold_subStep1 {e : Element} {b : MSMap} :
    ∀ (l : MSMap) (acc : MSMap), elemOk e = true → msOk l = true →
      cnt e acc = none →
      cnt e (List.foldl (subStep1 b) acc l) =
        (match cnt e l, cnt e b with
         | some c, some cb => if c > cb then some (c - cb) else none
         | some c, none => some c
         | none, _ => none) := by
  intro l
  induction l with
  | nil =>
      intro acc _ _ hacc
      simp only [List.foldl_nil, hacc]
      simp [cnt, findEntry]
  | cons p rest ih =>
      intro acc hoe hl hacc
      rw [msOk_iff] at hl
      have hop : elemOk p.1 = true := hl.2 p (List.mem_cons_self p rest)
      have hrest : msOk rest = true := by
        rw [msOk_iff]
        exact ⟨hl.1.sublist (List.sublist_cons_self p rest),
          fun q hq => hl.2 q (List.mem_cons_of_mem p hq)⟩
      simp only [List.foldl_cons]
      by_cases he : elemEq e p.1 = true
      · have hnomatch : ∀ q ∈ rest, elemEq e q.1 = false := by
          intro q hq
          cases h2 : elemEq e q.1 with
          | true =>
              exact absurd (elemEq_trans (elemEq_symm hoe he) h2)
                (by simp [((List.pairwise_cons.1 hl.1).1 q hq).1])
          | false => rfl
        rw [cnt_fold_subStep1_nomatch rest _ hoe hnomatch
          (fun q hq => hl.2 q (List.mem_cons_of_mem p hq))]
        rw [cnt_subStep1 b acc hoe hop]
        rw [cnt_cons]
        simp only [he, if_pos, hacc]
        cases hcb : cnt e b <;> simp
      · simp only [Bool.not_eq_true] at he
        have hstep : cnt e (subStep1 b acc p) = none := by
          rw [cnt_subStep1 b acc hoe hop]
          simp [he, hacc]
        rw [ih _ hoe hrest hstep, cnt_cons]
        simp [he]

theorem cnt_fold_subStep2 {e : Element} {a : MSMap} :
    ∀ (l : MSMap) (acc : MSMap), elemOk e = true → msOk l = true →
      cnt e (List.foldl (subStep2 a) acc l) =
        (match cnt e l, cnt e a with
         | some cb, none => some cb
         | some _, some _ => cnt e acc
         | none, _ => cnt e acc) := by
  intro l
  induction l with
  | nil =>
      intro acc _ _
      simp only [List.foldl_nil]
      simp [cnt, findEntry]
  | cons p rest ih =>
      intro acc hoe hl
      rw [msOk_iff] at hl
      have hop : elemOk p.1 = true := hl.2 p (List.mem_cons_self p rest)
      have hrest : msOk rest = true := by
        rw [msOk_iff]
        exact ⟨hl.1.sublist (List.sublist_cons_self p rest),
          fun q hq => hl.2 q (List.mem_cons_of_mem p hq)⟩
      simp only [List.foldl_cons]
      by_cases he : elemEq e p.1 = true
      · have hnomatch : ∀ q ∈ rest, elemEq e q.1 = false := by
          intro q hq
          cases h2 : elemEq e q.1 with
          | true =>
              exact absurd (elemEq_trans (elemEq_symm hoe he) h2)
                (by simp [((List.pairwise_cons.1 hl.1).1 q hq).1])
          | false => rfl
        rw [cnt_fold_subStep2_nomatch rest _ hoe hnomatch
          (fun q hq => hl.2 q (List.mem_cons_of_mem p hq))]
        rw [cnt_subStep2 a acc hoe hop]
        rw [cnt_cons]
        simp only [he, if_pos]
        cases hca : cnt e a <;> simp
      · simp only [Bool.not_eq_true] at he
        have hstep : cnt e (subStep2 a acc p) = cnt e acc := by
          rw [cnt_subStep2 a acc hoe hop]
          simp [he]
        rw [ih _ hoe hrest, hstep, cnt_cons]
        simp [he]

/-! ### RemoveElement lemmas -/

theorem removeElement_none_iff {e : Element} :
    ∀ m : MSMap, removeElement e m = none ↔ findEntry e m = none := by
  intro m
  induction m with
  | nil => simp [removeElement, findEntry]
  | cons p rest ih =>
      cases p with
      | mk k c =>
          by_cases h : elemEq e k = true
          · simp [removeElement, findEntry, h]
          · simp only [Bool.not_eq_true] at h
            simp [removeElement, findEntry, h, ih]

theorem removeElement_cnt {e : Element} :
    ∀ m : MSMap, msOk m = true → elemOk e = true →
      ∀ kc : Element × Int, findEntry e m = some kc →
        ∃ m2, removeElement e m = some m2 ∧
          cnt e m2 = (if kc.2 = 1 then none else some (kc.2 - 1)) := by
  intro m
  induction m with
  | nil => intro _ _ kc h; simp [findEntry] at h
  | cons p rest ih =>
      intro hm hoe kc hfind
      rw [msOk_iff] at hm
      obtain ⟨pk, pc⟩ := p
      by_cases he : elemEq e pk = true
      · have hkc : kc = (pk, pc) := by
          simp only [findEntry, he, if_pos, Option.some.injEq] at hfind
          exact hfind.symm
        subst hkc
        have hnomatch : ∀ q ∈ rest, elemEq e q.1 = false := by
          intro q hq
          cases h2 : elemEq e q.1 with
          | true =>
              exact absurd (elemEq_trans (elemEq_symm hoe he) h2)
                (by simp [((List.pairwise_cons.1 hm.1).1 q hq).1])
          | false => rfl
        by_cases hc1 : pc = 1
        · refine ⟨rest, ?_, ?_⟩
          · simp [removeElement, he, hc1]
          · rw [cnt_none_of_all hnomatch]
            simp [hc1]
        · refine ⟨(pk, pc - 1) :: rest, ?_, ?_⟩
          · have hz : (pc - 1 == 0) = false := by
              simp only [beq_eq_false_iff_ne, ne_eq]
              omega
            simp [removeElement, he, hz]
          · rw [cnt_cons]
            simp [he, hc1]
      · simp only [Bool.not_eq_true] at he
        simp only [findEntry, he] at hfind
        simp only [Bool.false_eq_true, if_false] at hfind
        have hrest : msOk rest = true := by
          rw [msOk_iff]
          exact ⟨hm.1.sublist (List.sublist_cons_self _ rest),
            fun q hq => hm.2 q (List.mem_cons_of_mem _ hq)⟩
        obtain ⟨m2, hrm, hcnt⟩ := ih hrest hoe kc hfind
        refine ⟨(pk, pc) :: m2, ?_, ?_⟩
        · simp [removeElement, he, hrm]
        · rw [cnt_cons]
          simp [he, hcnt]

/-! ### Positivity of stored counts -/

theorem posCounts_iff {m : MSMap} :
    posCounts m = true ↔ ∀ p ∈ m, (1 : Int) ≤ p.2 := by
  simp [posCounts, List.all_eq_true]

theorem findEntry_mem {e : Element} :
    ∀ {m : MSMap} {kc : Element × Int}, findEntry e m = some kc → kc ∈ m := by
  intro m
  induction m with
  | nil => intro kc h; simp [findEntry] at h
  | cons p rest ih =>
      intro kc h
      obtain ⟨k, c⟩ := p
      by_cases he : elemEq e k = true
      · simp only [findEntry, he, if_pos] at h
        injection h with h2
        exact h2 ▸ List.mem_cons_self _ _
      · simp only [Bool.not_eq_true] at he
        simp only [findEntry, he] at h
        simp only [Bool.false_eq_true, if_false] at h
        exact List.mem_cons_of_mem _ (ih h)

theorem findEntry_pos {e : Element} {m : MSMap} {kc : Element × Int}
    (hp : posCounts m = true) (h : findEntry e m = some kc) : (1 : Int) ≤ kc.2 :=
  posCounts_iff.1 hp kc (findEntry_mem h)

theorem posCounts_insertOrAssign {k : Element} {v : Int}
    (hv : (1 : Int) ≤ v) :
    ∀ {m : MSMap}, posCounts m = true → posCounts (insertOrAssign k v m) = true := by
  intro m
  induction m with
  | nil => intro _; simp [insertOrAssign, posCounts, hv]
  | cons p rest ih =>
      intro hm
      rw [posCounts_iff] at hm
      have hrest : posCounts rest = true :=
        posCounts_iff.2 fun r hr => hm r (List.mem_cons_of_mem _ hr)
      obtain ⟨k0, c0⟩ := p
      by_cases h : elemEq k k0 = true
      · simp only [insertOrAssign, h, if_pos]
        rw [posCounts_iff]
        intro q hq
        rcases List.mem_cons.1 hq with rfl | hq2
        · simpa using hv
        · exact hm q (List.mem_cons_of_mem _ hq2)
      · simp only [Bool.not_eq_true] at h
        simp only [insertOrAssign, h]
        simp only [Bool.false_eq_true, if_false]
        rw [posCounts_iff]
        intro q hq
        rcases List.mem_cons.1 hq with rfl | hq2
        · exact hm (k0, c0) (List.mem_cons_self _ _)
        · exact posCounts_iff.1 (ih hrest) q hq2

theorem posCounts_addElement (e : Element) :
    ∀ {m : MSMap}, posCounts m = true → posCounts (addElement e m) = true := by
  intro m
  induction m with
  | nil => intro _; simp [addElement, posCounts]
  | cons p rest ih =>
      intro hm
      rw [posCounts_iff] at hm
      have hrest : posCounts rest = true :=
        posCounts_iff.2 fun r hr => hm r (List.mem_cons_of_mem _ hr)
      obtain ⟨k0, c0⟩ := p
      by_cases h : elemEq e k0 = true
      · simp only [addElement, h, if_pos]
        rw [posCounts_iff]
        intro q hq
        rcases List.mem_cons.1 hq with rfl | hq2
        · have := hm (k0, c0) (List.mem_cons_self _ _)
          simp only at this ⊢
          omega
        · exact hm q (List.mem_cons_of_mem _ hq2)
      · simp only [Bool.not_eq_true] at h
        simp only [addElement, h]
        simp only [Bool.false_eq_true, if_false]
        rw [posCounts_iff]
        intro q hq
        rcases List.mem_cons.1 hq with rfl | hq2
        · exact hm (k0, c0) (List.mem_cons_self _ _)
        · exact posCounts_iff.1 (ih hrest) q hq2

theorem posCounts_removeElement {e : Element} :
    ∀ {m m2 : MSMap}, posCounts m = true → removeElement e m = some m2 →
      posCounts m2 = true := by
  intro m
  induction m with
  | nil => intro m2 _ h; simp [removeElement] at h
  | cons p rest ih =>
      intro m2 hm hr
      rw [posCounts_iff] at hm
      have hrest : posCounts rest = true :=
        posCounts_iff.2 fun r hr2 => hm r (List.mem_cons_of_mem _ hr2)
      obtain ⟨k0, c0⟩ := p
      by_cases h : elemEq e k0 = true
      · simp only [removeElement, h, if_pos] at hr
        injection hr with h2
        by_cases hz : (c0 - 1 == 0) = true
        · rw [← h2]
          simp only [hz, if_pos]
          exact hrest
        · simp only [Bool.not_eq_true] at hz
          rw [← h2]
          simp only [hz]
          simp only [Bool.false_eq_true, if_false]
          rw [posCounts_iff]
          intro q hq
          rcases List.mem_cons.1 hq with rfl | hq2
          · have h1 := hm (k0, c0) (List.mem_cons_self _ _)
            have h3 : c0 - 1 ≠ 0 := beq_eq_false_iff_ne.1 hz
            simp only at h1 ⊢
            omega
          · exact posCounts_iff.1 hrest q hq2
      · simp only [Bool.not_eq_true] at h
        simp [removeElement, h] at hr
        cases hr2 : removeElement e rest with
        | none => rw [hr2] at hr; simp at hr
        | some m3 =>
            rw [hr2] at hr
            have hr3 : (k0, c0) :: m3 = m2 := by simpa using hr
            rw [← hr3, posCounts_iff]
            intro q hq
            rcases List.mem_cons.1 hq with rfl | hq2
            · exact hm (k0, c0) (List.mem_cons_self _ _)
            · exact posCounts_iff.1 (ih hrest hr2) q hq2

theorem posCounts_foldl_unionStep :
    ∀ (l acc : MSMap), posCounts acc = true → (∀ p ∈ l, (1 : Int) ≤ p.2) →
      posCounts (List.foldl unionStep acc l) = true := by
  intro l
  induction l with
  | nil => intro acc h _; exact h
  | cons p rest ih =>
      intro acc hacc hl
      simp only [List.foldl_cons]
      have hstep : posCounts (unionStep acc p) = true := by
        unfold unionStep
        cases hf : findEntry p.1 acc with
        | some kc =>
            have h1 : (1 : Int) ≤ kc.2 := findEntry_pos hacc hf
            exact posCounts_insertOrAssign (le_max_of_le_left h1) hacc
        | none =>
            exact posCounts_insertOrAssign (hl p (List.mem_cons_self p rest)) hacc
      exact ih _ hstep (fun q hq => hl q (List.mem_cons_of_mem p hq))

theorem posCounts_unionOp {a b : MSMap} (ha : posCounts a = true)
    (hb : posCounts b = true) : posCounts (unionOp a b) = true :=
  posCounts_foldl_unionStep b a ha (posCounts_iff.1 hb)

theorem posCounts_foldl_interStep {b : MSMap} (hb : posCounts b = true) :
    ∀ (l acc : MSMap), posCounts acc = true → (∀ p ∈ l, (1 : Int) ≤ p.2) →
      posCounts (List.foldl (interStep b) acc l) = true := by
  intro l
  induction l with
  | nil => intro acc h _; exact h
  | cons p rest ih =>
      intro acc hacc hl
      simp only [List.foldl_cons]
      have hstep : posCounts (interStep b acc p) = true := by
        unfold interStep
        cases hf : findEntry p.1 b with
        | some kc =>
            have h1 : (1 : Int) ≤ kc.2 := findEntry_pos hb hf
            have h2 : (1 : Int) ≤ p.2 := hl p (List.mem_cons_self p rest)
            exact posCounts_insertOrAssign (le_min h2 h1) hacc
        | none => exact hacc
      exact ih _ hstep (fun q hq => hl q (List.mem_cons_of_mem p hq))

theorem posCounts_interOp {a b : MSMap} (ha : posCounts a = true)
    (hb : posCounts b = true) : posCounts (interOp a b) = true :=
  posCounts_foldl_interStep hb a [] rfl (posCounts_iff.1 ha)

theorem posCounts_foldl_subStep1 {b : MSMap} :
    ∀ (l acc : MSMap), posCounts acc = true → (∀ p ∈ l, (1 : Int) ≤ p.2) →
      posCounts (List.foldl (subStep1 b) acc l) = true := by
  intro l
  induction l with
  | nil => intro acc h _; exact h
  | cons p rest ih =>
      intro acc hacc hl
      simp only [List.foldl_cons]
      have hstep : posCounts (subStep1 b acc p) = true := by
        unfold subStep1
        cases hf : findEntry p.1 b with
        | some kc =>
            by_cases hgt : kc.2 < p.2
            · simp only [hgt, if_pos]
              exact posCounts_insertOrAssign (by omega) hacc
            · simp only [hgt, if_false]
              exact hacc
        | none =>
            exact posCounts_insertOrAssign (hl p (List.mem_cons_self p rest)) hacc
      exact ih _ hstep (fun q hq => hl q (List.mem_cons_of_mem p hq))

theorem posCounts_foldl_subStep2 {a : MSMap} :
    ∀ (l acc : MSMap), posCounts acc = true → (∀ p ∈ l, (1 : Int) ≤ p.2) →
      posCounts (List.foldl (subStep2 a) acc l) = true := by
  intro l
  induction l with
  | nil => intro acc h _; exact h
  | cons p rest ih =>
      intro acc hacc hl
      simp only [List.foldl_cons]
      have hstep : posCounts (subStep2 a acc p) = true := by
        unfold subStep2
        cases hf : findEntry p.1 a with
        | some kc => exact hacc
        | none =>
            exact posCounts_insertOrAssign (hl p (List.mem_cons_self p rest)) hacc
      exact ih _ hstep (fun q hq => hl q (List.mem_cons_of_mem p hq))

theorem posCounts_subOp {a b : MSMap} (ha : posCounts a = true)
    (hb : posCounts b = true) : posCounts (subOp a b) = true :=
  posCounts_foldl_subStep2 b _
    (posCounts_foldl_subStep1 a [] rfl (posCounts_iff.1 ha)) (posCounts_iff.1 hb)

theorem posCounts_parseLoop :
    ∀ (fuel idc : Nat) (s : IStream) (lastCh : Char) (elems res : MSMap)
      (s2 : IStream) (idc2 : Nat), posCounts elems = true →
      parseLoop fuel idc s lastCh elems = (some res, s2, idc2) →
      posCounts res = true := by
  intro fuel
  induction fuel with
  | zero =>
      intro idc s lastCh elems res s2 idc2 hp h
      obtain ⟨e0, s0, j0, hshape⟩ := parseLoop_shape 0 idc s lastCh elems
      rw [hshape] at h
      by_cases h1 : (readCharSkipWs s0).1.getD lastCh = '}'
      · rw [if_pos h1] at h
        injection h with h2 h3
        injection h2 with h4
        exact h4 ▸ posCounts_addElement _ hp
      · rw [if_neg h1] at h
        by_cases h2 : (readCharSkipWs s0).1.getD lastCh = ','
        · rw [if_pos h2] at h
          injection h with h3 h4
          exact absurd h3 (by simp)
        · rw [if_neg h2] at h
          injection h with h3 h4
          exact absurd h3 (by simp)
  | succ f ih =>
      intro idc s lastCh elems res s2 idc2 hp h
      obtain ⟨e0, s0, j0, hshape⟩ := parseLoop_shape (Nat.succ f) idc s lastCh elems
      rw [hshape] at h
      by_cases h1 : (readCharSkipWs s0).1.getD lastCh = '}'
      · rw [if_pos h1] at h
        injection h with h2 h3
        injection h2 with h4
        exact h4 ▸ posCounts_addElement _ hp
      · rw [if_neg h1] at h
        by_cases h2 : (readCharSkipWs s0).1.getD lastCh = ','
        · rw [if_pos h2] at h
          exact ih _ _ _ _ res s2 idc2 (posCounts_addElement _ hp) h
        · rw [if_neg h2] at h
          injection h with h3 h4
          exact absurd h3 (by simp)

theorem posCounts_parseMS {fuel idc : Nat} {s : IStream} {res : MSMap}
    {s2 : IStream} {idc2 : Nat}
    (h : parseMS fuel idc s = (some res, s2, idc2)) : posCounts res = true := by
  unfold parseMS at h
  split at h
  · cases fuel with
    | zero =>
        injection h with h2 h3
        exact absurd h2 (by simp)
    | succ f =>
        exact posCounts_parseLoop f idc _ '{' [] res s2 idc2 rfl h
  · injection h with h2 h3
    exact absurd h2 (by simp)

/-! ### Heap consistency, collapse of value equality, and the hash -/

theorem consistentB_iff {bs : List (Nat × MSMap)} :
    consistentB bs = true ↔ bs.Pairwise (fun x y => x.1 = y.1 → x.2 = y.2) := by
  induction bs with
  | nil => simp [consistentB]
  | cons x rest ih =>
      simp only [consistentB, Bool.and_eq_true, List.all_eq_true,
        List.pairwise_cons, ih]
      constructor
      · rintro ⟨hall, hpw⟩
        refine ⟨fun y hy hxy => ?_, hpw⟩
        have := hall y hy
        simp only [Bool.or_eq_true, bne_iff_ne, ne_eq, decide_eq_true_eq] at this
        rcases this with h1 | h1
        · exact absurd hxy h1
        · exact h1
      · rintro ⟨h1, hpw⟩
        refine ⟨fun y hy => ?_, hpw⟩
        simp only [Bool.or_eq_true, bne_iff_ne, ne_eq, decide_eq_true_eq]
        by_cases hxy : x.1 = y.1
        · exact Or.inr (h1 y hy hxy)
        · exact Or.inl hxy

theorem msBindings_append : ∀ s t : MSMap,
    msBindings (s ++ t) = msBindings s ++ msBindings t := by
  intro s t
  induction s with
  | nil => simp [msBindings]
  | cons p rest ih =>
      obtain ⟨e, c⟩ := p
      simp [msBindings, ih]

theorem msBindings_key_mem : ∀ {m : MSMap} {q : Element × Int}, q ∈ m →
    ∀ x ∈ elemBindings q.1, x ∈ msBindings m := by
  intro m
  induction m with
  | nil => intro q hq; simp at hq
  | cons p rest ih =>
      intro q hq x hx
      obtain ⟨e, c⟩ := p
      rcases List.mem_cons.1 hq with rfl | hq2
      · exact List.mem_append.2 (Or.inl hx)
      · exact List.mem_append.2 (Or.inr (ih hq2 x hx))

theorem valueEq_collapse {p q : Element × Int} {m1 m2 : MSMap}
    (hp : p ∈ m1) (hq : q ∈ m2)
    (hcons : (msBindings m1 ++ msBindings m2).Pairwise
      (fun x y => x.1 = y.1 → x.2 = y.2))
    (hv : valueEq p.1 q.1 = true) : p.1 = q.1 := by
  cases hp1 : p.1 with
  | label s =>
      cases hq1 : q.1 with
      | label t =>
          rw [hp1, hq1] at hv
          simp only [valueEq, beq_iff_eq] at hv
          rw [hv]
      | nested b d => rw [hp1, hq1] at hv; simp [valueEq] at hv
  | nested a c =>
      cases hq1 : q.1 with
      | label t => rw [hp1, hq1] at hv; simp [valueEq] at hv
      | nested b d =>
          rw [hp1, hq1] at hv
          simp only [valueEq, beq_iff_eq] at hv
          subst hv
          have hm1 : (a, c) ∈ msBindings m1 := by
            apply msBindings_key_mem hp
            rw [hp1]
            exact List.mem_cons_self _ _
          have hm2 : (a, d) ∈ msBindings m2 := by
            apply msBindings_key_mem hq
            rw [hq1]
            exact List.mem_cons_self _ _
          have := (List.pairwise_append.1 hcons).2.2 (a, c) hm1 (a, d) hm2 rfl
          exact congrArg (Element.nested a) this

theorem mapEq_perm : ∀ (m1 m2 : MSMap), distinctV m1 = true → distinctV m2 = true →
    (msBindings m1 ++ msBindings m2).Pairwise (fun x y => x.1 = y.1 → x.2 = y.2) →
    mapEq m1 m2 = true → m1.Perm m2 := by
  intro m1
  induction m1 with
  | nil =>
      intro m2 _ _ _ heq
      rw [mapEq_iff] at heq
      rw [List.eq_nil_of_length_eq_zero heq.1.symm]
  | cons p rest ih =>
      intro m2 hd1 hd2 hcons heq
      rw [mapEq_iff] at heq
      obtain ⟨q, hq, hpq⟩ := heq.2 p (List.mem_cons_self p rest)
      have hpq2 := hpq
      simp only [pairEq, Bool.and_eq_true, beq_iff_eq] at hpq2
      have hk : p.1 = q.1 :=
        valueEq_collapse (List.mem_cons_self p rest) hq hcons hpq2.1
      have hpq3 : p = q := Prod.ext hk hpq2.2
      subst hpq3
      obtain ⟨s, t, rfl⟩ := List.append_of_mem hq
      have hd1r : distinctV rest = true := by
        rw [distinctV_iff] at hd1 ⊢
        exact hd1.sublist (List.sublist_cons_self p rest)
      have hsubl : List.Sublist (s ++ t) (s ++ p :: t) :=
        (List.append_sublist_append_left s).2 (List.sublist_cons_self p t)
      have hd2r : distinctV (s ++ t) = true := by
        rw [distinctV_iff] at hd2 ⊢
        exact hd2.sublist hsubl
      have hbind : List.Sublist (msBindings (s ++ t)) (msBindings (s ++ p :: t)) := by
        rw [msBindings_append, msBindings_append]
        refine (List.append_sublist_append_left (msBindings s)).2 ?_
        show List.Sublist (msBindings t) (msBindings (p :: t))
        obtain ⟨e, c⟩ := p
        simp only [msBindings]
        exact List.sublist_append_right _ _
      have hbindrest : List.Sublist (msBindings rest) (msBindings (p :: rest)) := by
        obtain ⟨e, c⟩ := p
        simp only [msBindings]
        exact List.sublist_append_right _ _
      have hconsr : (msBindings rest ++ msBindings (s ++ t)).Pairwise
          (fun x y => x.1 = y.1 → x.2 = y.2) :=
        hcons.sublist (List.Sublist.append hbindrest hbind)
      have hlen : rest.length = (s ++ t).length := by
        have := heq.1
        simp only [List.length_cons, List.length_append] at this ⊢
        omega
      have hrel : ∀ r ∈ rest, ∃ u ∈ s ++ t, pairEq r u = true := by
        intro r hr
        obtain ⟨u, hu, hru⟩ := heq.2 r (List.mem_cons_of_mem p hr)
        rcases List.mem_append.1 hu with hus | hut
        · exact ⟨u, List.mem_append.2 (Or.inl hus), hru⟩
        · rcases List.mem_cons.1 hut with hup | hut2
          · exfalso
            rw [hup] at hru
            rw [distinctV_iff, List.pairwise_cons] at hd1
            have hvf : valueEq p.1 r.1 = false := hd1.1 r hr
            have hvr : valueEq r.1 p.1 = true := by
              simp only [pairEq, Bool.and_eq_true] at hru
              exact hru.1
            exact absurd (valueEq_symm hvr) (by simp [hvf])
          · exact ⟨u, List.mem_append.2 (Or.inr hut2), hru⟩
      have hperm : rest.Perm (s ++ t) :=
        ih (s ++ t) hd1r hd2r hconsr (mapEq_iff.2 ⟨hlen, hrel⟩)
      exact (hperm.cons p).trans List.perm_middle.symm

theorem msHashAcc_acc (hs : String → Nat) (hi : Int → Nat) :
    ∀ (l : MSMap) (acc : Nat),
      msHashAcc hs hi l acc = acc ^^^ msHashAcc hs hi l 0 := by
  intro l
  induction l with
  | nil => intro acc; simp [msHashAcc]
  | cons p rest ih =>
      intro acc
      obtain ⟨e, n⟩ := p
      simp only [msHashAcc]
      rw [ih (acc ^^^ (elemHash hs hi e ^^^ hi n <<< 1 % 2 ^ 64)),
        ih (0 ^^^ (elemHash hs hi e ^^^ hi n <<< 1 % 2 ^ 64)),
        Nat.zero_xor, Nat.xor_assoc]

theorem msHash_cons (hs : String → Nat) (hi : Int → Nat) (p : Element × Int)
    (l : MSMap) :
    msHash hs hi (p :: l) =
      (elemHash hs hi p.1 ^^^ ((hi p.2 <<< 1) % 2 ^ 64)) ^^^ msHash hs hi l := by
  obtain ⟨e, n⟩ := p
  simp only [msHash, msHashAcc]
  rw [msHashAcc_acc hs hi l (0 ^^^ (elemHash hs hi e ^^^ hi n <<< 1 % 2 ^ 64)),
    Nat.zero_xor]

theorem msHash_perm (hs : String → Nat) (hi : Int → Nat) {l1 l2 : MSMap}
    (h : l1.Perm l2) : msHash hs hi l1 = msHash hs hi l2 := by
  induction h with
  | nil => rfl
  | cons x h ih => rw [msHash_cons, msHash_cons, ih]
  | swap x y l =>
      rw [msHash_cons, msHash_cons, msHash_cons, msHash_cons]
      have hx : ∀ A B H : Nat, A ^^^ (B ^^^ H) = B ^^^ (A ^^^ H) := by
        intro A B H
        rw [← Nat.xor_assoc, ← Nat.xor_assoc, Nat.xor_comm A B]
      exact hx _ _ _
  | trans h1 h2 ih1 ih2 => exact ih1.trans ih2

theorem msHash_of_mapEq (hs : String → Nat) (hi : Int → Nat) {m1 m2 : MSMap}
    (h1 : distinctV m1 = true) (h2 : distinctV m2 = true)
    (hcons : consistentB (msBindings m1 ++ msBindings m2) = true)
    (heq : mapEq m1 m2 = true) : msHash hs hi m1 = msHash hs hi m2 :=
  msHash_perm hs hi (mapEq_perm m1 m2 h1 h2 (consistentB_iff.1 hcons) heq)

theorem elemHash_of_elemEq (hs : String → Nat) (hi : Int → Nat) {a b : Element}
    (h1 : elemOk a = true) (h2 : elemOk b = true)
    (hcons : consistentB (elemBindings a ++ elemBindings b) = true)
    (heq : elemEq a b = true) : elemHash hs hi a = elemHash hs hi b := by
  cases a with
  | label s =>
      cases b with
      | label t =>
          simp only [elemEq, beq_iff_eq] at heq
          rw [heq]
      | nested q d => simp [elemEq] at heq
  | nested p c =>
      cases b with
      | label t => simp [elemEq] at heq
      | nested q d =>
          simp only [elemEq] at heq
          simp only [elemOk] at h1 h2
          have hsub : List.Sublist (msBindings c ++ msBindings d)
              (elemBindings (Element.nested p c) ++ elemBindings (Element.nested q d)) := by
            simp only [elemBindings]
            exact List.Sublist.append (List.sublist_cons_self _ _)
              (List.sublist_cons_self _ _)
          have hcons2 : (msBindings c ++ msBindings d).Pairwise
              (fun x y => x.1 = y.1 → x.2 = y.2) :=
            (consistentB_iff.1 hcons).sublist hsub
          show msHashAcc hs hi c 0 = msHashAcc hs hi d 0
          exact msHash_perm hs hi (mapEq_perm c d h1 h2 hcons2 heq)

/-! ### Reader failure lemmas -/

theorem parseLoop_fail :
    ∀ (fuel idc : Nat) (s : IStream) (lastCh : Char) (elems : MSMap)
      (s2 : IStream) (idc2 : Nat),
      parseLoop fuel idc s lastCh elems = (none, s2, idc2) → s2.failed = true := by
  intro fuel
  induction fuel with
  | zero =>
      intro idc s lastCh elems s2 idc2 h
      obtain ⟨e0, s0, j0, hshape⟩ := parseLoop_shape 0 idc s lastCh elems
      rw [hshape] at h
      by_cases h1 : (readCharSkipWs s0).1.getD lastCh = '}'
      · rw [if_pos h1] at h
        injection h with h2 h3
        exact absurd h2 (by simp)
      · rw [if_neg h1] at h
        by_cases h2 : (readCharSkipWs s0).1.getD lastCh = ','
        · rw [if_pos h2] at h
          injection h with h3 h4
          injection h4 with h5 h6
          rw [← h5]
          rfl
        · rw [if_neg h2] at h
          injection h with h3 h4
          injection h4 with h5 h6
          rw [← h5]
          rfl
  | succ f ih =>
      intro idc s lastCh elems s2 idc2 h
      obtain ⟨e0, s0, j0, hshape⟩ := parseLoop_shape (Nat.succ f) idc s lastCh elems
      rw [hshape] at h
      by_cases h1 : (readCharSkipWs s0).1.getD lastCh = '}'
      · rw [if_pos h1] at h
        injection h with h2 h3
        exact absurd h2 (by simp)
      · rw [if_neg h1] at h
        by_cases h2 : (readCharSkipWs s0).1.getD lastCh = ','
        · rw [if_pos h2] at h
          exact ih _ _ _ _ s2 idc2 h
        · rw [if_neg h2] at h
          injection h with h3 h4
          injection h4 with h5 h6
          rw [← h5]
          rfl

theorem parseMS_fail {fuel idc : Nat} {s : IStream} {s2 : IStream} {idc2 : Nat}
    (h : parseMS fuel idc s = (none, s2, idc2)) : s2.failed = true := by
  unfold parseMS at h
  split at h
  · cases fuel with
    | zero =>
        injection h with h2 h3
        injection h3 with h4 h5
        rw [← h4]
        rfl
    | succ f => exact parseLoop_fail f idc _ '{' [] s2 idc2 h
  · injection h with h2 h3
    injection h3 with h4 h5
    rw [← h4]
    rfl

theorem opIn_fail_unchanged (target : MSMap) (input : List Char) (fuel idc : Nat)
    (h : (opIn target input fuel idc).2.2 = false) :
    (opIn target input fuel idc).1 = target ∧
      (opIn target input fuel idc).2.1.failed = true := by
  rcases hp : parseMS fuel idc { data := input, failed := false } with ⟨o, s, i⟩
  cases o with
  | some m =>
      exfalso
      have h2 : (opIn target input fuel idc).2.2 = true := by
        simp [opIn, hp]
      rw [h2] at h
      exact absurd h (by simp)
  | none =>
      have hf := parseMS_fail hp
      constructor
      · simp [opIn, hp]
      · simp [opIn, hp, hf]

theorem readCharSkipWs_some {input : List Char} {c : Char} {s1 : IStream}
    (h : readCharSkipWs { data := input, failed := false } = (some c, s1)) :
    (input.dropWhile isWs).head? = some c := by
  simp only [readCharSkipWs, Bool.false_eq_true, if_false] at h
  cases hdw : input.dropWhile isWs with
  | nil =>
      rw [hdw] at h
      simp at h
  | cons c2 rest =>
      rw [hdw] at h
      simp only [Prod.mk.injEq, Option.some.injEq] at h
      simp [h.1]

theorem opIn_no_brace (target : MSMap) (input : List Char) (fuel idc : Nat)
    (h : (input.dropWhile isWs).head? ≠ some '{') :
    (opIn target input fuel idc).1 = target ∧
      (opIn target input fuel idc).2.2 = false ∧
      (opIn target input fuel idc).2.1.failed = true := by
  have hnone : (parseMS fuel idc { data := input, failed := false }).1 = none := by
    unfold parseMS
    split
    · next s1 heq => exact absurd (readCharSkipWs_some heq) h
    · rfl
  rcases hp : parseMS fuel idc { data := input, failed := false } with ⟨o, s, i⟩
  rw [hp] at hnone
  simp only at hnone
  subst hnone
  have hf := parseMS_fail hp
  refine ⟨?_, ?_, ?_⟩ <;> simp [opIn, hp, hf]

theorem loopElem_label {s : IStream} (h : (peekS s == some '{') = false)
    (fuel idc : Nat) : loopElem fuel idc s = labelElem idc s := by
  cases fuel <;> simp [loopElem, h]

theorem parseLoop_close {fuel idc : Nat} {s : IStream} {lastCh : Char}
    {elems : MSMap}
    (h : (readCharSkipWs (loopElem fuel idc s).2.1).1.getD lastCh = '}') :
    parseLoop fuel idc s lastCh elems =
      (some (addElement (loopElem fuel idc s).1 elems),
        (readCharSkipWs (loopElem fuel idc s).2.1).2, (loopElem fuel idc s).2.2) := by
  cases fuel with
  | zero =>
      rw [show parseLoop 0 idc s lastCh elems =
        (if (readCharSkipWs (loopElem 0 idc s).2.1).1.getD lastCh = '}' then
          (some (addElement (loopElem 0 idc s).1 elems),
            (readCharSkipWs (loopElem 0 idc s).2.1).2, (loopElem 0 idc s).2.2)
         else (none, setFail (readCharSkipWs (loopElem 0 idc s).2.1).2,
            (loopElem 0 idc s).2.2)) from rfl]
      rw [if_pos h]
  | succ f =>
      rw [parseLoop_succ, if_pos h]

theorem opIn_bad_sep (target : MSMap) (g idc : Nat) (c : Char)
    (hw : isWs c = false) (hc : c ≠ ',') (hb : c ≠ '}') :
    opIn target ('{' :: '{' :: 'a' :: '}' :: c :: '}' :: []) (Nat.succ (Nat.succ g)) idc =
      (target, { data := ['}'], failed := true }, false) := by
  have h1 : readCharSkipWs { data := ('{' :: '{' :: 'a' :: '}' :: c :: '}' :: []), failed := false } =
      (some '{', { data := ('{' :: 'a' :: '}' :: c :: '}' :: []), failed := false }) := by
    simp [readCharSkipWs, List.dropWhile, isWs]
  have h3 : takeLabel { data := ('a' :: '}' :: c :: '}' :: []), failed := false } =
      ("a", { data := ('}' :: c :: '}' :: []), failed := false }) := by
    simp [takeLabel, List.dropWhile, List.takeWhile, isWs]
  have h4 : readCharSkipWs { data := ('}' :: c :: '}' :: []), failed := false } =
      (some '}', { data := (c :: '}' :: []), failed := false }) := by
    simp [readCharSkipWs, List.dropWhile, isWs]
  have h5 : readCharSkipWs { data := (c :: '}' :: []), failed := false } =
      (some c, { data := ('}' :: []), failed := false }) := by
    simp [readCharSkipWs, List.dropWhile, hw]
  have hle2 : loopElem g (idc + 1)
      { data := ('a' :: '}' :: c :: '}' :: []), failed := false } =
      (Element.label "a", { data := ('}' :: c :: '}' :: []), failed := false }, idc + 1) := by
    rw [loopElem_label (by simp [peekS])]
    simp [labelElem, h3]
  have hinner : parseLoop g (idc + 1)
      { data := ('a' :: '}' :: c :: '}' :: []), failed := false } '{' [] =
      (some [(Element.label "a", 1)], { data := (c :: '}' :: []), failed := false }, idc + 1) := by
    rw [parseLoop_close (by rw [hle2]; simp [h4])]
    rw [hle2]
    simp [h4, addElement]
  have hrc : readCharSkipWs { data := ('{' :: 'a' :: '}' :: c :: '}' :: []), failed := false } =
      (some '{', { data := ('a' :: '}' :: c :: '}' :: []), failed := false }) := by
    simp [readCharSkipWs, List.dropWhile, isWs]
  have hle1 : loopElem (Nat.succ g) idc
      { data := ('{' :: 'a' :: '}' :: c :: '}' :: []), failed := false } =
      (Element.nested idc [(Element.label "a", 1)],
        { data := (c :: '}' :: []), failed := false }, idc + 1) := by
    simp [loopElem, peekS, hrc, hinner, nestedElem]
  have houter : parseLoop (Nat.succ g) idc
      { data := ('{' :: 'a' :: '}' :: c :: '}' :: []), failed := false } '{' [] =
      (none, { data := ('}' :: []), failed := true }, idc + 1) := by
    rw [parseLoop_succ, hle1]
    simp [h5, hb, hc, setFail]
  have hpm : parseMS (Nat.succ (Nat.succ g)) idc
      { data := ('{' :: '{' :: 'a' :: '}' :: c :: '}' :: []), failed := false } =
      (none, { data := ('}' :: []), failed := true }, idc + 1) := by
    unfold parseMS
    rw [h1]
    exact houter
  simp [opIn, hpm]

/-! ### Claim theorems -/

theorem cnt_pos {e : Element} {m : MSMap} {x : Int}
    (hp : posCounts m = true) (h : cnt e m = some x) : (1 : Int) ≤ x := by
  unfold cnt at h
  cases hf : findEntry e m with
  | none => rw [hf] at h; simp at h
  | some kc =>
      rw [hf] at h
      have hx : kc.2 = x := by simpa using h
      have := findEntry_pos hp hf
      omega

/-- C1: for all multisets A and B (any real container state: pairwise
distinct well-formed keys) and every well-formed element e, the stored
count of e in A - B is countA - countB when e is in both operands with
countA > countB; absent when e is in both with countA <= countB;
countA when e is in A only; and countB when e is in B only (the
asymmetric inclusion of right-only elements). -/
theorem C1_difference_counts (a b : MSMap) (e : Element)
    (ha : msOk a = true) (hb : msOk b = true) (hoe : elemOk e = true) :
    cnt e (subOp a b) =
      match cnt e a, cnt e b with
      | some ca, some cb => if ca > cb then some (ca - cb) else none
      | some ca, none => some ca
      | none, some cb => some cb
      | none, none => none := by
  unfold subOp
  rw [cnt_fold_subStep2 b _ hoe hb,
    cnt_fold_subStep1 a [] hoe ha (by simp [cnt, findEntry])]
  cases hca : cnt e a <;> cases hcb : cnt e b <;> simp

/-- Witness for C1 at concrete inputs. -/
theorem C1_witness :
    msOk [(Element.label "a", 3), (Element.label "b", 1)] = true ∧
    msOk [(Element.label "a", 1), (Element.label "c", 2)] = true ∧
    elemOk (Element.label "a") = true ∧
    cnt (Element.label "a")
        (subOp [(Element.label "a", 3), (Element.label "b", 1)]
          [(Element.label "a", 1), (Element.label "c", 2)]) = some 2 :=
  ⟨by decide, by decide, by decide,
    C1_difference_counts [(Element.label "a", 3), (Element.label "b", 1)]
      [(Element.label "a", 1), (Element.label "c", 2)] (Element.label "a")
      (by decide) (by decide) (by decide)⟩

/-- C2: evaluation of `operator==` at the failing input.  The two
multisets each hold one nested element, and the two nested multisets
are structurally equal: the identity layer `VariantEqual` relates them
(first conjunct) and the counts agree, so the claim requires `==` to
return true; but `==` compares the stored `shared_ptr`s by address
(addresses 1 and 2) and returns false (second conjunct).  The last
three conjuncts show both operands are well-formed, heap-consistent
container states. -/
theorem C2_pointer_equality_eval :
    elemEq (Element.nested 1 [(Element.label "x", 1)])
      (Element.nested 2 [(Element.label "x", 1)]) = true ∧
    mapEq [(Element.nested 1 [(Element.label "x", 1)], 1)]
      [(Element.nested 2 [(Element.label "x", 1)], 1)] = false ∧
    msOk [(Element.nested 1 [(Element.label "x", 1)], 1)] = true ∧
    msOk [(Element.nested 2 [(Element.label "x", 1)], 1)] = true ∧
    consistentB
      (msBindings [(Element.nested 1 [(Element.label "x", 1)], 1)] ++
        msBindings [(Element.nested 2 [(Element.label "x", 1)], 1)]) = true := by
  decide

/-- C3: evaluation of the read-of-write round trip at the failing
inputs.  Writing the empty multiset gives the two-brace text, but
parsing that text succeeds with a multiset holding the empty label
with count 1, which is not equal to the empty multiset.  Writing a
multiset holding the label a followed by a nested multiset gives a
text in which the nested opening brace is preceded by the separator
space, so the reader takes the label branch and produces a garbage
label (an opening brace followed by b) - also not equal to the
original. -/
theorem C3_roundtrip_eval :
    writeMS ([] : MSMap) = "\x7b\x7d" ∧
    opIn [] ((writeMS ([] : MSMap)).toList) 9 0 =
      ([(Element.label "", 1)], { data := [], failed := false }, true) ∧
    mapEq [(Element.label "", 1)] [] = false ∧
    writeMS [(Element.label "a", 1), (Element.nested 5 [(Element.label "b", 1)], 1)] =
      "\x7ba, \x7bb\x7d\x7d" ∧
    (opIn [] ((writeMS [(Element.label "a", 1),
        (Element.nested 5 [(Element.label "b", 1)], 1)]).toList) 9 0).1 =
      [(Element.label "a", 1), (Element.label "\x7bb", 1)] ∧
    mapEq [(Element.label "a", 1), (Element.label "\x7bb", 1)]
      [(Element.label "a", 1), (Element.nested 5 [(Element.label "b", 1)], 1)] = false := by
  refine ⟨by decide, by decide, by decide, by decide, by decide, by decide⟩

/-- C4: evaluation of the reader on the two-character text of an open
brace followed by a close brace: the parse succeeds, but the resulting
multiset holds the empty-string label with count 1, so its Size() is
1, not 0 as the claim requires. -/
theorem C4_parse_empty_eval :
    (opIn [] ("\x7b\x7d".toList) 9 0).2.2 = true ∧
    (opIn [] ("\x7b\x7d".toList) 9 0).1 = [(Element.label "", 1)] ∧
    msSize (opIn [] ("\x7b\x7d".toList) 9 0).1 = 1 := by
  refine ⟨by decide, by decide, by decide⟩

/-- C5 counterexample: commutativity of union under `operator==` fails
at a concrete input.  A holds a nested multiset under address 1, B a
structurally equal nested multiset under address 2; A + B keeps A's
stored pointer while B + A keeps B's, and `==` compares the pointers,
so (A + B) == (B + A) evaluates to false although the claim requires
true.  The remaining conjuncts show A and B are well-formed,
heap-consistent, positive-count container states. -/
theorem C5_counterexample :
    mapEq
      (unionOp [(Element.nested 1 [(Element.label "x", 1)], 1)]
        [(Element.nested 2 [(Element.label "x", 1)], 1)])
      (unionOp [(Element.nested 2 [(Element.label "x", 1)], 1)]
        [(Element.nested 1 [(Element.label "x", 1)], 1)]) = false ∧
    msOk [(Element.nested 1 [(Element.label "x", 1)], 1)] = true ∧
    msOk [(Element.nested 2 [(Element.label "x", 1)], 1)] = true ∧
    posCounts [(Element.nested 1 [(Element.label "x", 1)], 1)] = true ∧
    posCounts [(Element.nested 2 [(Element.label "x", 1)], 1)] = true ∧
    consistentB
      (msBindings [(Element.nested 1 [(Element.label "x", 1)], 1)] ++
        msBindings [(Element.nested 2 [(Element.label "x", 1)], 1)]) = true := by
  decide

/-- C5 (amended): for well-formed positive-count multisets the count
of every well-formed element in A + B is the maximum of its counts in
A and in B with absent treated as 0; union is commutative at the level
of counts; and union is idempotent (A + A == A holds under
`operator==`).  Commutativity under `operator==` itself fails in
general (see the counterexample): A + B keeps the left operand's
stored pointers, so it can differ from B + A by pointer identity. -/
theorem C5_union_amended (a b : MSMap) (e : Element)
    (ha : msOk a = true) (hb : msOk b = true)
    (hpa : posCounts a = true) (hpb : posCounts b = true)
    (hoe : elemOk e = true) :
    cntz e (unionOp a b) = max (cntz e a) (cntz e b) ∧
    cntz e (unionOp a b) = cntz e (unionOp b a) ∧
    mapEq (unionOp a a) a = true := by
  have h1 := cnt_unionOp a b hoe hb
  have h2 := cnt_unionOp b a hoe ha
  refine ⟨?_, ?_, ?_⟩
  · unfold cntz
    rw [h1]
    cases hca : cnt e a with
    | none =>
        cases hcb : cnt e b with
        | none => simp
        | some y =>
            have := cnt_pos hpb hcb
            simp
            omega
    | some x =>
        cases hcb : cnt e b with
        | none =>
            have := cnt_pos hpa hca
            simp
            omega
        | some y => simp
  · unfold cntz
    rw [h1, h2]
    cases hca : cnt e a <;> cases hcb : cnt e b <;> simp [max_comm]
  · rw [unionOp_self ha]
    exact mapEq_refl a

/-- Witness for C5 (amended) at concrete inputs. -/
theorem C5_witness :
    msOk [(Element.label "a", 2)] = true ∧
    msOk [(Element.label "a", 1), (Element.label "b", 3)] = true ∧
    posCounts [(Element.label "a", 2)] = true ∧
    posCounts [(Element.label "a", 1), (Element.label "b", 3)] = true ∧
    elemOk (Element.label "b") = true ∧
    (cntz (Element.label "b")
        (unionOp [(Element.label "a", 2)] [(Element.label "a", 1), (Element.label "b", 3)]) =
      max (cntz (Element.label "b") [(Element.label "a", 2)])
        (cntz (Element.label "b") [(Element.label "a", 1), (Element.label "b", 3)]) ∧
     cntz (Element.label "b")
        (unionOp [(Element.label "a", 2)] [(Element.label "a", 1), (Element.label "b", 3)]) =
      cntz (Element.label "b")
        (unionOp [(Element.label "a", 1), (Element.label "b", 3)] [(Element.label "a", 2)]) ∧
     mapEq (unionOp [(Element.label "a", 2)] [(Element.label "a", 2)])
        [(Element.label "a", 2)] = true) :=
  ⟨by decide, by decide, by decide, by decide, by decide,
    C5_union_amended [(Element.label "a", 2)]
      [(Element.label "a", 1), (Element.label "b", 3)] (Element.label "b")
      (by decide) (by decide) (by decide) (by decide) (by decide)⟩

/-- C6 counterexample: SetElements is one of the operations the claim
quantifies over, and it copies its argument unchecked; applied to a
multiset whose counts are all at least 1 (the empty one) with an
argument holding a zero count, it leaves an entry with count 0 in the
map, falsifying the claim as stated. -/
theorem C6_counterexample :
    posCounts ([] : MSMap) = true ∧
    setElements ([] : MSMap) [(Element.label "a", 0)] = [(Element.label "a", 0)] ∧
    posCounts (setElements ([] : MSMap) [(Element.label "a", 0)]) = false := by
  decide

/-- C6 (amended): every stored count stays at least 1 under
AddElement, successful RemoveElement, the union, intersection and
difference operators, and parsing; SetElements preserves the invariant
exactly when the caller-supplied map already satisfies it (the parsing
path always supplies such a map). -/
theorem C6_invariant_amended (m nw a b : MSMap) (e : Element)
    (hm : posCounts m = true) (ha : posCounts a = true)
    (hb : posCounts b = true) :
    posCounts (addElement e m) = true ∧
    (∀ m2, removeElement e m = some m2 → posCounts m2 = true) ∧
    posCounts (unionOp a b) = true ∧
    posCounts (interOp a b) = true ∧
    posCounts (subOp a b) = true ∧
    (posCounts nw = true → posCounts (setElements m nw) = true) ∧
    (∀ fuel idc s res s2 idc2, parseMS fuel idc s = (some res, s2, idc2) →
      posCounts res = true) :=
  ⟨posCounts_addElement e hm,
   fun _ h => posCounts_removeElement hm h,
   posCounts_unionOp ha hb,
   posCounts_interOp ha hb,
   posCounts_subOp ha hb,
   fun h => h,
   fun _ _ _ _ _ _ h => posCounts_parseMS h⟩

/-- Witness for C6 (amended) at concrete inputs. -/
theorem C6_witness :
    posCounts [(Element.label "w", 2)] = true ∧
    posCounts [(Element.label "a", 1)] = true ∧
    posCounts [(Element.label "b", 3)] = true ∧
    (posCounts (addElement (Element.label "w") [(Element.label "w", 2)]) = true ∧
     (∀ m2, removeElement (Element.label "w") [(Element.label "w", 2)] = some m2 →
        posCounts m2 = true) ∧
     posCounts (unionOp [(Element.label "a", 1)] [(Element.label "b", 3)]) = true ∧
     posCounts (interOp [(Element.label "a", 1)] [(Element.label "b", 3)]) = true ∧
     posCounts (subOp [(Element.label "a", 1)] [(Element.label "b", 3)]) = true ∧
     (posCounts [(Element.label "v", 1)] = true →
        posCounts (setElements [(Element.label "w", 2)] [(Element.label "v", 1)]) = true) ∧
     (∀ fuel idc s res s2 idc2, parseMS fuel idc s = (some res, s2, idc2) →
        posCounts res = true)) :=
  ⟨by decide, by decide, by decide,
    C6_invariant_amended [(Element.label "w", 2)] [(Element.label "v", 1)]
      [(Element.label "a", 1)] [(Element.label "b", 3)] (Element.label "w")
      (by decide) (by decide) (by decide)⟩

/-- C7: the element hash is consistent with the identity layer's
element equality (equal elements of well-formed heap-consistent states
hash alike, for any implementation of the standard string and int
hashes), the multiset content hash - the XOR fold over entries of
element hash XOR (count hash shifted left by one, wrapping at 64 bits)
- assigns equal hashes to multisets equal under `operator==`, and the
fold is invariant under any reordering of the map's entries, so
structurally equal multisets built in different insertion orders hash
identically. -/
theorem C7_hash_consistent (hs : String → Nat) (hi : Int → Nat) (a b : Element)
    (m1 m2 l1 l2 : MSMap)
    (h1 : elemOk a = true) (h2 : elemOk b = true)
    (hce : consistentB (elemBindings a ++ elemBindings b) = true)
    (hd1 : distinctV m1 = true) (hd2 : distinctV m2 = true)
    (hcm : consistentB (msBindings m1 ++ msBindings m2) = true)
    (hperm : l1.Perm l2) :
    (elemEq a b = true → elemHash hs hi a = elemHash hs hi b) ∧
    (mapEq m1 m2 = true → msHash hs hi m1 = msHash hs hi m2) ∧
    msHash hs hi l1 = msHash hs hi l2 :=
  ⟨fun he => elemHash_of_elemEq hs hi h1 h2 hce he,
   fun he => msHash_of_mapEq hs hi hd1 hd2 hcm he,
   msHash_perm hs hi hperm⟩

/-- Witness for C7 at concrete inputs. -/
theorem C7_witness :
    elemOk (Element.nested 3 [(Element.label "x", 1), (Element.label "y", 2)]) = true ∧
    elemOk (Element.nested 7 [(Element.label "y", 2), (Element.label "x", 1)]) = true ∧
    consistentB
      (elemBindings (Element.nested 3 [(Element.label "x", 1), (Element.label "y", 2)]) ++
        elemBindings (Element.nested 7 [(Element.label "y", 2), (Element.label "x", 1)])) = true ∧
    distinctV [(Element.label "x", 1), (Element.label "y", 2)] = true ∧
    distinctV [(Element.label "y", 2), (Element.label "x", 1)] = true ∧
    consistentB
      (msBindings [(Element.label "x", 1), (Element.label "y", 2)] ++
        msBindings [(Element.label "y", 2), (Element.label "x", 1)]) = true ∧
    List.Perm [(Element.label "x", (1 : Int)), (Element.label "y", 2)]
      [(Element.label "y", 2), (Element.label "x", 1)] ∧
    ((elemEq (Element.nested 3 [(Element.label "x", 1), (Element.label "y", 2)])
        (Element.nested 7 [(Element.label "y", 2), (Element.label "x", 1)]) = true →
      elemHash String.length Int.natAbs
          (Element.nested 3 [(Element.label "x", 1), (Element.label "y", 2)]) =
        elemHash String.length Int.natAbs
          (Element.nested 7 [(Element.label "y", 2), (Element.label "x", 1)])) ∧
     (mapEq [(Element.label "x", 1), (Element.label "y", 2)]
        [(Element.label "y", 2), (Element.label "x", 1)] = true →
      msHash String.length Int.natAbs [(Element.label "x", 1), (Element.label "y", 2)] =
        msHash String.length Int.natAbs [(Element.label "y", 2), (Element.label "x", 1)]) ∧
     msHash String.length Int.natAbs [(Element.label "x", 1), (Element.label "y", 2)] =
       msHash String.length Int.natAbs [(Element.label "y", 2), (Element.label "x", 1)]) :=
  ⟨by decide, by decide, by decide, by decide, by decide, by decide, by decide,
    C7_hash_consistent String.length Int.natAbs
      (Element.nested 3 [(Element.label "x", 1), (Element.label "y", 2)])
      (Element.nested 7 [(Element.label "y", 2), (Element.label "x", 1)])
      [(Element.label "x", 1), (Element.label "y", 2)]
      [(Element.label "y", 2), (Element.label "x", 1)]
      [(Element.label "x", 1), (Element.label "y", 2)]
      [(Element.label "y", 2), (Element.label "x", 1)]
      (by decide) (by decide) (by decide) (by decide) (by decide) (by decide)
      (by decide)⟩

/-- C8: for a well-formed multiset and a well-formed element,
RemoveElement fails (throwing, with the object unchanged) exactly when
the element matches no key of the map; on success the matched key's
count decreases by 1, and the entry is erased when the decremented
count reaches 0. -/
theorem C8_remove_element (m : MSMap) (e : Element)
    (hm : msOk m = true) (hoe : elemOk e = true) :
    ((runRemove m e).2 = false ↔ findEntry e m = none) ∧
    (findEntry e m = none → runRemove m e = (m, false)) ∧
    (∀ kc : Element × Int, findEntry e m = some kc →
      (runRemove m e).2 = true ∧
      cnt e (runRemove m e).1 = (if kc.2 = 1 then none else some (kc.2 - 1))) := by
  refine ⟨?_, ?_, ?_⟩
  · have hrw : (runRemove m e).2 = false ↔ removeElement e m = none := by
      unfold runRemove
      cases hr : removeElement e m with
      | none => simp
      | some m2 => simp
    rw [hrw]
    exact removeElement_none_iff m
  · intro hfe
    unfold runRemove
    rw [(removeElement_none_iff m).2 hfe]
  · intro kc hfind
    obtain ⟨m2, hrm, hcnt⟩ := removeElement_cnt m hm hoe kc hfind
    unfold runRemove
    rw [hrm]
    exact ⟨rfl, hcnt⟩

/-- Witness for C8 at concrete inputs. -/
theorem C8_witness :
    msOk [(Element.label "a", 2), (Element.label "b", 1)] = true ∧
    elemOk (Element.label "a") = true ∧
    (((runRemove [(Element.label "a", 2), (Element.label "b", 1)] (Element.label "a")).2 = false ↔
       findEntry (Element.label "a") [(Element.label "a", 2), (Element.label "b", 1)] = none) ∧
     (findEntry (Element.label "a") [(Element.label "a", 2), (Element.label "b", 1)] = none →
       runRemove [(Element.label "a", 2), (Element.label "b", 1)] (Element.label "a") =
         ([(Element.label "a", 2), (Element.label "b", 1)], false)) ∧
     (∀ kc : Element × Int,
       findEntry (Element.label "a") [(Element.label "a", 2), (Element.label "b", 1)] = some kc →
       (runRemove [(Element.label "a", 2), (Element.label "b", 1)] (Element.label "a")).2 = true ∧
       cnt (Element.label "a")
           (runRemove [(Element.label "a", 2), (Element.label "b", 1)] (Element.label "a")).1 =
         (if kc.2 = 1 then none else some (kc.2 - 1)))) :=
  ⟨by decide, by decide,
    C8_remove_element [(Element.label "a", 2), (Element.label "b", 1)] (Element.label "a")
      (by decide) (by decide)⟩

/-- C9: the reader rejects malformed input without producing a partial
multiset: when the first non-whitespace character of the input is not
an opening brace the read fails, the stream is left failed and the
target multiset is unchanged; whenever a read fails the target is
unchanged and the stream failed; and an input holding a character
other than a comma, a closing brace or whitespace where the element
separator is required (here after a nested element) makes the read
fail with the target unchanged and the stream failed. -/
theorem C9_malformed_input (target : MSMap) (input : List Char)
    (fuel idc g : Nat) (c : Char) :
    ((input.dropWhile isWs).head? ≠ some '{' →
      (opIn target input fuel idc).1 = target ∧
        (opIn target input fuel idc).2.2 = false ∧
        (opIn target input fuel idc).2.1.failed = true) ∧
    ((opIn target input fuel idc).2.2 = false →
      (opIn target input fuel idc).1 = target ∧
        (opIn target input fuel idc).2.1.failed = true) ∧
    (isWs c = false → c ≠ ',' → c ≠ '}' →
      opIn target ('{' :: '{' :: 'a' :: '}' :: c :: '}' :: [])
          (Nat.succ (Nat.succ g)) idc =
        (target, { data := ['}'], failed := true }, false)) :=
  ⟨fun h => opIn_no_brace target input fuel idc h,
   fun h => opIn_fail_unchanged target input fuel idc h,
   fun hw hc hb => opIn_bad_sep target g idc c hw hc hb⟩

/-- Witness for C9 at concrete inputs. -/
theorem C9_witness :
    ((("[oops".toList).dropWhile isWs).head? ≠ some '{' ∧
      (opIn [(Element.label "keep", 2)] ("[oops".toList) 5 0).1 =
          [(Element.label "keep", 2)] ∧
        (opIn [(Element.label "keep", 2)] ("[oops".toList) 5 0).2.2 = false ∧
        (opIn [(Element.label "keep", 2)] ("[oops".toList) 5 0).2.1.failed = true) ∧
    ((opIn [(Element.label "keep", 2)] ("[oops".toList) 5 0).1 =
        [(Element.label "keep", 2)] ∧
      (opIn [(Element.label "keep", 2)] ("[oops".toList) 5 0).2.1.failed = true) ∧
    (isWs 'x' = false ∧ 'x' ≠ ',' ∧ 'x' ≠ '}' ∧
      opIn [(Element.label "keep", 2)] ('{' :: '{' :: 'a' :: '}' :: 'x' :: '}' :: [])
          (Nat.succ (Nat.succ 0)) 0 =
        ([(Element.label "keep", 2)], { data := ['}'], failed := true }, false)) :=
  ⟨⟨by decide,
      (C9_malformed_input [(Element.label "keep", 2)] ("[oops".toList) 5 0 0 'x').1
        (by decide)⟩,
    (C9_malformed_input [(Element.label "keep", 2)] ("[oops".toList) 5 0 0 'x').2.1
      (by decide),
    ⟨by decide, by decide, by decide,
      (C9_malformed_input [(Element.label "keep", 2)] ("[oops".toList) 5 0 0 'x').2.2
        (by decide) (by decide) (by decide)⟩⟩

/-- C10: adding a well-formed element e to a multiset leaves the
stored count (and the presence) of every element f that the identity
layer's equality does not relate to e exactly as it was: only the
entry for e is affected and no other key is added. -/
theorem C10_add_frame (m : MSMap) (e f : Element)
    (hoe : elemOk e = true) (hne : elemEq f e = false) :
    cnt f (addElement e m) = cnt f m :=
  cnt_addElement_other hoe hne m

/-- Witness for C10 at concrete inputs. -/
theorem C10_witness :
    elemOk (Element.label "a") = true ∧
    elemEq (Element.label "b") (Element.label "a") = false ∧
    cnt (Element.label "b")
        (addElement (Element.label "a") [(Element.label "b", 2)]) =
      cnt (Element.label "b") [(Element.label "b", 2)] :=
  ⟨by decide, by decide,
    C10_add_frame [(Element.label "b", 2)] (Element.label "a") (Element.label "b")
      (by decide) (by decide)⟩
